import Mathlib

/-!
Verification of the PyLogic propositional-equivalence prover.

This file shallowly embeds the core of the repository:
* the expression model (`proposition/__init__.py`: `Proposition`, `TruthConstant`,
  `AtomicNode`, `OperatorNode`, `CompoundProposition`);
* the parser (`proposition/parser.py`: `Lexer`, `Parser`);
* the equivalence-law library, tree traversal utilities and the proof-search
  loops (`backend/utils/equivalence/__init__.py`);
* the prove service (`backend/resources/platform/prover/prove/service.py`).

Machine-specific notes on the embedding:
* Python trees wrap both named variables (`Proposition`) and the truth
  constants (`TruthConstant`) in `AtomicNode` leaves; the embedding separates
  them into `Expr.atom` and `Expr.const`, and `nodesEqual` reproduces the
  source's text-based leaf comparison (a `TruthConstant` has text "T"/"F").
* Randomness (`random.choice`, `random.random() < 0.1`) is modelled by
  explicit choice data (`Rnd`), and the trained neural predictors by opaque
  function parameters, following the source's use of them as black boxes.
-/

set_option maxHeartbeats 1000000

namespace PyLogic

/-- The expression tree.  `atom n` is an `AtomicNode` wrapping a mutable
`Proposition` whose `text` is `n`; `const b` is an `AtomicNode` wrapping the
fixed `TruthConstant` singleton `TRUE`/`FALSE`; the operator nodes mirror
`OperatorNode` with operators `__invert__`, `__mul__`, `__add__`,
`__rshift__`. -/
inductive Expr where
  | atom : String → Expr
  | const : Bool → Expr
  | neg : Expr → Expr
  | conj : Expr → Expr → Expr
  | disj : Expr → Expr → Expr
  | impl : Expr → Expr → Expr
deriving DecidableEq, Repr

/-- Evaluation under an environment of variable values
(`OperatorNode.evaluate` together with `Proposition.value` lookups;
`TruthConstant.value` is fixed).  `impl` is material implication,
`not left or right`, as in `Proposition.__rshift__`. -/
def evalE (env : String → Bool) : Expr → Bool
  | .atom n => env n
  | .const b => b
  | .neg a => !(evalE env a)
  | .conj a b => evalE env a && evalE env b
  | .disj a b => evalE env a || evalE env b
  | .impl a b => !(evalE env a) || evalE env b

/-- The `text` of a `TruthConstant` leaf ('T' if value else 'F'). -/
def constText (b : Bool) : String := if b then "T" else "F"

/-- `Equivalence._nodes_equal`: structural comparison; `AtomicNode` leaves are
compared by their proposition `text`, so an atom named "T" compares equal to
the TRUE constant. -/
def nodesEqual : Expr → Expr → Bool
  | .atom a, .atom b => a == b
  | .atom a, .const b => a == constText b
  | .const a, .atom b => constText a == b
  | .const a, .const b => constText a == constText b
  | .neg a, .neg b => nodesEqual a b
  | .conj a b, .conj c d => nodesEqual a c && nodesEqual b d
  | .disj a b, .disj c d => nodesEqual a c && nodesEqual b d
  | .impl a b, .impl c d => nodesEqual a c && nodesEqual b d
  | _, _ => false

/-- `Equivalence._is_true_constant`: only a `TruthConstant` leaf with value
True qualifies (a plain `Proposition` answers `is_constant() == False`). -/
def isTrueConst : Expr → Bool
  | .const true => true
  | _ => false

/-- `Equivalence._is_false_constant`. -/
def isFalseConst : Expr → Bool
  | .const false => true
  | _ => false

/-- `Equivalence._is_constant`. -/
def isConst : Expr → Bool
  | .const _ => true
  | _ => false

/-- `check_double_negation`: root is `~~p`. -/
def check_double_negation : Expr → Bool
  | .neg (.neg _) => true
  | _ => false

/-- `apply_double_negation`: `~~p -> p`; returns the input unchanged when the
check fails (the source starts with `if not self.check...: return proposition`). -/
def apply_double_negation : Expr → Expr
  | .neg (.neg a) => a
  | e => e

/-- `check_de_morgan` (forward): `~(p ^ q)` or `~(p v q)`. -/
def check_de_morgan : Expr → Bool
  | .neg (.conj _ _) => true
  | .neg (.disj _ _) => true
  | _ => false

/-- `apply_de_morgan`: `~(p ^ q) -> ~p v ~q`, `~(p v q) -> ~p ^ ~q`. -/
def apply_de_morgan : Expr → Expr
  | .neg (.conj a b) => .disj (.neg a) (.neg b)
  | .neg (.disj a b) => .conj (.neg a) (.neg b)
  | e => e

/-- `check_de_morgan_reverse`: root is a conjunction or disjunction. -/
def check_de_morgan_reverse : Expr → Bool
  | .conj _ _ => true
  | .disj _ _ => true
  | _ => false

/-- `apply_de_morgan_reverse`: `p v q -> ~(~p ^ ~q)`, `p ^ q -> ~(~p v ~q)`. -/
def apply_de_morgan_reverse : Expr → Expr
  | .disj a b => .neg (.conj (.neg a) (.neg b))
  | .conj a b => .neg (.disj (.neg a) (.neg b))
  | e => e

/-- `check_commutativity`: AND/OR only (implication is not commutative). -/
def check_commutativity : Expr → Bool
  | .conj _ _ => true
  | .disj _ _ => true
  | _ => false

/-- `apply_commutativity`: `p op q -> q op p`. -/
def apply_commutativity : Expr → Expr
  | .conj a b => .conj b a
  | .disj a b => .disj b a
  | e => e

/-- `check_associativity`: `(p op q) op r` with the same AND/OR operator at
both levels. -/
def check_associativity : Expr → Bool
  | .conj (.conj _ _) _ => true
  | .disj (.disj _ _) _ => true
  | _ => false

/-- `apply_associativity`: `(p op q) op r -> p op (q op r)`. -/
def apply_associativity : Expr → Expr
  | .conj (.conj p q) r => .conj p (.conj q r)
  | .disj (.disj p q) r => .disj p (.disj q r)
  | e => e

/-- `check_idempotence`: `p op p` for AND/OR, via `_nodes_equal`. -/
def check_idempotence : Expr → Bool
  | .conj a b => nodesEqual a b
  | .disj a b => nodesEqual a b
  | _ => false

/-- `apply_idempotence`: `p op p -> p` (returns the left operand). -/
def apply_idempotence : Expr → Expr
  | .conj a b => if nodesEqual a b then a else .conj a b
  | .disj a b => if nodesEqual a b then a else .disj a b
  | e => e

/-- Helper shared by the absorption check and rewrite: does the right child
decompose under the inner operator with a common operand?  The source inlines
these four `_nodes_equal` tests. -/
def absorbRight : Expr → Expr → Bool
  | l, .conj x y => nodesEqual l x || nodesEqual l y
  | _, _ => false

/-- Like `absorbRight` but with OR as the inner operator. -/
def absorbRightOr : Expr → Expr → Bool
  | l, .disj x y => nodesEqual l x || nodesEqual l y
  | _, _ => false

/-- `check_absorption`: `p v (p ^ q)`-style patterns, common operand in either
position of either child. -/
def check_absorption : Expr → Bool
  | .disj l r => absorbRight l r || absorbRight r l
  | .conj l r => absorbRightOr l r || absorbRightOr r l
  | _ => false

/-- `apply_absorption`: right-child patterns first (returning the left
operand), then left-child patterns (returning the right operand). -/
def apply_absorption : Expr → Expr
  | .disj l r =>
      if absorbRight l r then l
      else if absorbRight r l then r
      else .disj l r
  | .conj l r =>
      if absorbRightOr l r then l
      else if absorbRightOr r l then r
      else .conj l r
  | e => e

/-- `check_distributivity` via `_can_distribute_child`: some child is a binary
AND/OR node with the operator opposite to the root's. -/
def check_distributivity : Expr → Bool
  | .disj l r =>
      (match l with | .conj _ _ => true | _ => false) ||
      (match r with | .conj _ _ => true | _ => false)
  | .conj l r =>
      (match l with | .disj _ _ => true | _ => false) ||
      (match r with | .disj _ _ => true | _ => false)
  | _ => false

/-- `apply_distributivity`: distributes over the right child when possible,
otherwise over the left child (the source tests `root.right` first). -/
def apply_distributivity : Expr → Expr
  | .disj l r =>
      match r with
      | .conj q s => .conj (.disj l q) (.disj l s)
      | _ =>
        match l with
        | .conj q s => .conj (.disj r q) (.disj r s)
        | _ => .disj l r
  | .conj l r =>
      match r with
      | .disj q s => .disj (.conj l q) (.conj l s)
      | _ =>
        match l with
        | .disj q s => .disj (.conj r q) (.conj r s)
        | _ => .conj l r
  | e => e

/-- `check_factoring`: `(p op q) op' (p op r)` with opposite inner/outer
operators and a common factor in one of the four operand positions. -/
def check_factoring : Expr → Bool
  | .disj (.conj a b) (.conj c d) =>
      nodesEqual a c || nodesEqual a d || nodesEqual b c || nodesEqual b d
  | .conj (.disj a b) (.disj c d) =>
      nodesEqual a c || nodesEqual a d || nodesEqual b c || nodesEqual b d
  | _ => false

/-- `apply_factoring`: extracts the first common factor found, in the
source's test order (ll/rl, ll/rr, lr/rl, lr/rr). -/
def apply_factoring : Expr → Expr
  | .disj (.conj a b) (.conj c d) =>
      if nodesEqual a c then .conj a (.disj b d)
      else if nodesEqual a d then .conj a (.disj b c)
      else if nodesEqual b c then .conj b (.disj a d)
      else if nodesEqual b d then .conj b (.disj a c)
      else .disj (.conj a b) (.conj c d)
  | .conj (.disj a b) (.disj c d) =>
      if nodesEqual a c then .disj a (.conj b d)
      else if nodesEqual a d then .disj a (.conj b c)
      else if nodesEqual b c then .disj b (.conj a d)
      else if nodesEqual b d then .disj b (.conj a c)
      else .conj (.disj a b) (.disj c d)
  | e => e

/-- `check_implication_elimination`: any implication at the root. -/
def check_implication_elimination : Expr → Bool
  | .impl _ _ => true
  | _ => false

/-- `apply_implication_elimination`: `p -> q` becomes `~p v q`. -/
def apply_implication_elimination : Expr → Expr
  | .impl a b => .disj (.neg a) b
  | e => e

/-- `check_implication_introduction`: a disjunction whose left operand is a
negation. -/
def check_implication_introduction : Expr → Bool
  | .disj (.neg _) _ => true
  | _ => false

/-- `apply_implication_introduction`: `~p v q` becomes `p -> q`. -/
def apply_implication_introduction : Expr → Expr
  | .disj (.neg a) b => .impl a b
  | e => e

/-- `check_contraposition`: any implication at the root. -/
def check_contraposition : Expr → Bool
  | .impl _ _ => true
  | _ => false

/-- `apply_contraposition`: `p -> q` becomes `~q -> ~p`. -/
def apply_contraposition : Expr → Expr
  | .impl a b => .impl (.neg b) (.neg a)
  | e => e

/-- `check_identity`: `p v F` / `p ^ T` with the constant on either side. -/
def check_identity : Expr → Bool
  | .disj l r => isFalseConst l || isFalseConst r
  | .conj l r => isTrueConst l || isTrueConst r
  | _ => false

/-- `apply_identity`: drops the neutral constant, testing the right side
first as the source does. -/
def apply_identity : Expr → Expr
  | .disj l r =>
      if isFalseConst r then l else if isFalseConst l then r else .disj l r
  | .conj l r =>
      if isTrueConst r then l else if isTrueConst l then r else .conj l r
  | e => e

/-- `check_domination`: `p v T` / `p ^ F` with the constant on either side. -/
def check_domination : Expr → Bool
  | .disj l r => isTrueConst l || isTrueConst r
  | .conj l r => isFalseConst l || isFalseConst r
  | _ => false

/-- `apply_domination`: collapses to the dominating constant. -/
def apply_domination : Expr → Expr
  | .disj l r =>
      if isTrueConst l || isTrueConst r then .const true else .disj l r
  | .conj l r =>
      if isFalseConst l || isFalseConst r then .const false else .conj l r
  | e => e

/-- `check_negation_constant`: `~T` / `~F`. -/
def check_negation_constant : Expr → Bool
  | .neg a => isConst a
  | _ => false

/-- `apply_negation_constant`: `~T -> F`, `~F -> T`. -/
def apply_negation_constant : Expr → Expr
  | .neg a =>
      if isTrueConst a then .const false
      else if isFalseConst a then .const true
      else .neg a
  | e => e

/-- First case of `check_complement`: the right operand is the negation of
the left (`p op ~p`). -/
def complementRight (l : Expr) : Expr → Bool
  | .neg x => nodesEqual l x
  | _ => false

/-- Second case of `check_complement`: the left operand is a negation whose
operand equals the right (`~p op p`). -/
def complementLeft (r : Expr) : Expr → Bool
  | .neg x => nodesEqual x r
  | _ => false

/-- One side is the negation of the other, in either order
(the two cases of `check_complement`). -/
def complementMatch (l r : Expr) : Bool :=
  complementRight l r || complementLeft r l

/-- `check_complement`: `p v ~p` / `p ^ ~p` under `_nodes_equal`. -/
def check_complement : Expr → Bool
  | .disj l r => complementMatch l r
  | .conj l r => complementMatch l r
  | _ => false

/-- `apply_complement`: `p v ~p -> T`, `p ^ ~p -> F`. -/
def apply_complement : Expr → Expr
  | .disj l r => if complementMatch l r then .const true else .disj l r
  | .conj l r => if complementMatch l r then .const false else .conj l r
  | e => e

/-- `check_implication_constant`: an implication with a constant on either
side. -/
def check_implication_constant : Expr → Bool
  | .impl l r => isConst l || isConst r
  | _ => false

/-- `apply_implication_constant`: `T -> p = p`, `F -> p = T`, `p -> T = T`,
`p -> F = ~p`, tested in the source's order. -/
def apply_implication_constant : Expr → Expr
  | .impl l r =>
      if isTrueConst l then r
      else if isFalseConst l then .const true
      else if isTrueConst r then .const true
      else if isFalseConst r then .neg l
      else .impl l r
  | e => e

/-- The seventeen equivalence laws of the library, one constructor per
`(check_*, apply_*)` pair. -/
inductive Rule where
  | double_negation
  | de_morgan
  | de_morgan_reverse
  | commutativity
  | associativity
  | idempotence
  | absorption
  | distributivity
  | factoring
  | implication_elimination
  | implication_introduction
  | contraposition
  | identity
  | domination
  | negation_constant
  | complement
  | implication_constant
deriving DecidableEq, Repr

/-- The name strings used as dictionary keys throughout the library. -/
def ruleName : Rule → String
  | .double_negation => "double_negation"
  | .de_morgan => "de_morgan"
  | .de_morgan_reverse => "de_morgan_reverse"
  | .commutativity => "commutativity"
  | .associativity => "associativity"
  | .idempotence => "idempotence"
  | .absorption => "absorption"
  | .distributivity => "distributivity"
  | .factoring => "factoring"
  | .implication_elimination => "implication_elimination"
  | .implication_introduction => "implication_introduction"
  | .contraposition => "contraposition"
  | .identity => "identity"
  | .domination => "domination"
  | .negation_constant => "negation_constant"
  | .complement => "complement"
  | .implication_constant => "implication_constant"

/-- Dispatch to the law's `check_*` method. -/
def ruleCheck : Rule → Expr → Bool
  | .double_negation => check_double_negation
  | .de_morgan => check_de_morgan
  | .de_morgan_reverse => check_de_morgan_reverse
  | .commutativity => check_commutativity
  | .associativity => check_associativity
  | .idempotence => check_idempotence
  | .absorption => check_absorption
  | .distributivity => check_distributivity
  | .factoring => check_factoring
  | .implication_elimination => check_implication_elimination
  | .implication_introduction => check_implication_introduction
  | .contraposition => check_contraposition
  | .identity => check_identity
  | .domination => check_domination
  | .negation_constant => check_negation_constant
  | .complement => check_complement
  | .implication_constant => check_implication_constant

/-- Dispatch to the law's `apply_*` method. -/
def ruleApply : Rule → Expr → Expr
  | .double_negation => apply_double_negation
  | .de_morgan => apply_de_morgan
  | .de_morgan_reverse => apply_de_morgan_reverse
  | .commutativity => apply_commutativity
  | .associativity => apply_associativity
  | .idempotence => apply_idempotence
  | .absorption => apply_absorption
  | .distributivity => apply_distributivity
  | .factoring => apply_factoring
  | .implication_elimination => apply_implication_elimination
  | .implication_introduction => apply_implication_introduction
  | .contraposition => apply_contraposition
  | .identity => apply_identity
  | .domination => apply_domination
  | .negation_constant => apply_negation_constant
  | .complement => apply_complement
  | .implication_constant => apply_implication_constant

/-- The seventeen (key, value) entries of the `transformations` dictionary of
`prove_equivalence_nn`, in insertion order. -/
def allRules : List Rule :=
  [.double_negation, .idempotence, .absorption, .factoring, .identity,
   .domination, .negation_constant, .complement, .implication_constant,
   .de_morgan, .commutativity, .associativity, .implication_elimination,
   .implication_introduction, .contraposition, .de_morgan_reverse,
   .distributivity]

/-- Membership test against the `transformations` dictionary of
`prove_equivalence_nn` (all seventeen law names are keys). -/
def lookupRule (s : String) : Option Rule :=
  allRules.find? (fun r => ruleName r == s)

/-- No atomic variable of the expression is named "T" or "F" — the invariant
every parser-produced expression enjoys (the tokenizer reserves those
spellings for the truth constants). -/
def noReservedAtoms : Expr → Bool
  | .atom n => !(n = "T") && !(n = "F")
  | .const _ => true
  | .neg a => noReservedAtoms a
  | .conj a b => noReservedAtoms a && noReservedAtoms b
  | .disj a b => noReservedAtoms a && noReservedAtoms b
  | .impl a b => noReservedAtoms a && noReservedAtoms b

/-- A step direction inside a tree path ('left' / 'right'). -/
inductive Dir where
  | l
  | r
deriving DecidableEq, Repr

/-- `Equivalence._can_apply_to_subtree`: the check holds at this node or in a
descendant; `AtomicNode` leaves answer False without consulting the check. -/
def canApplySub (check : Expr → Bool) : Expr → Bool
  | .neg a => check (.neg a) || canApplySub check a
  | .conj a b => check (.conj a b) || canApplySub check a || canApplySub check b
  | .disj a b => check (.disj a b) || canApplySub check a || canApplySub check b
  | .impl a b => check (.impl a b) || canApplySub check a || canApplySub check b
  | _ => false

/-- `Equivalence._can_apply_anywhere`: the check holds at the root or in some
subtree. -/
def canApplyAnywhere (check : Expr → Bool) (e : Expr) : Bool :=
  check e || canApplySub check e

/-- `Equivalence._find_applicable_locations`: all strict-descendant paths at
which the check holds, collected pre-order (each child is tested, then its
subtree is explored). -/
def findLocs (check : Expr → Bool) : Expr → List Dir → List (List Dir)
  | .neg a, path =>
      (if check a then [path ++ [Dir.l]] else []) ++ findLocs check a (path ++ [Dir.l])
  | .conj a b, path =>
      (if check a then [path ++ [Dir.l]] else []) ++ findLocs check a (path ++ [Dir.l]) ++
      (if check b then [path ++ [Dir.r]] else []) ++ findLocs check b (path ++ [Dir.r])
  | .disj a b, path =>
      (if check a then [path ++ [Dir.l]] else []) ++ findLocs check a (path ++ [Dir.l]) ++
      (if check b then [path ++ [Dir.r]] else []) ++ findLocs check b (path ++ [Dir.r])
  | .impl a b, path =>
      (if check a then [path ++ [Dir.l]] else []) ++ findLocs check a (path ++ [Dir.l]) ++
      (if check b then [path ++ [Dir.r]] else []) ++ findLocs check b (path ++ [Dir.r])
  | _, _ => []

/-- The location list built by `_apply_random_transformation_with_location`:
`none` stands for the `'root'` entry, `some p` for a descendant path. -/
def applicableLocations (check : Expr → Bool) (e : Expr) : List (Option (List Dir)) :=
  (if check e then [none] else []) ++ (findLocs check e []).map some

/-- `Equivalence._get_subexpr_at_path` (without the final string rendering). -/
def subexprAt : Expr → List Dir → Expr
  | e, [] => e
  | .neg a, .l :: p => subexprAt a p
  | .conj a _, .l :: p => subexprAt a p
  | .conj _ b, .r :: p => subexprAt b p
  | .disj a _, .l :: p => subexprAt a p
  | .disj _ b, .r :: p => subexprAt b p
  | .impl a _, .l :: p => subexprAt a p
  | .impl _ b, .r :: p => subexprAt b p
  | e, _ => e

/-- `Equivalence._apply_at_path_recursive`: rebuilds the ancestor chain along
the path, applying the rewrite at its end and reusing the untouched siblings. -/
def applyAtPath (ap : Expr → Expr) : Expr → List Dir → Expr
  | e, [] => ap e
  | .neg a, .l :: p => .neg (applyAtPath ap a p)
  | .conj a b, .l :: p => .conj (applyAtPath ap a p) b
  | .conj a b, .r :: p => .conj a (applyAtPath ap b p)
  | .disj a b, .l :: p => .disj (applyAtPath ap a p) b
  | .disj a b, .r :: p => .disj a (applyAtPath ap b p)
  | .impl a b, .l :: p => .impl (applyAtPath ap a p) b
  | .impl a b, .r :: p => .impl a (applyAtPath ap b p)
  | e, _ => e

/-- `Equivalence._apply_random_transformation_with_location`, with the
`random.choice` over locations supplied as an index `k` (taken modulo the
number of applicable locations).  Returns the rewritten expression and the
matched subexpression (`none` when applied at the root or inapplicable). -/
def applyRandomWithLoc (check : Expr → Bool) (ap : Expr → Expr) (e : Expr)
    (k : Nat) : Expr × Option Expr :=
  let locs := applicableLocations check e
  match locs.get? (k % locs.length) with
  | none => (e, none)
  | some none => (ap e, none)
  | some (some p) => (applyAtPath ap e p, some (subexprAt e p))

/-- `Equivalence._get_simplification_transformations` — note the source list
has TEN entries, ending with `implication_elimination`. -/
def simplificationTransformations : List Rule :=
  [.double_negation, .idempotence, .absorption, .factoring, .identity,
   .domination, .negation_constant, .complement, .implication_constant,
   .implication_elimination]

/-- `Equivalence._get_structure_transformations`. -/
def structureTransformations : List Rule :=
  [.de_morgan, .commutativity, .associativity, .contraposition]

/-- `Equivalence._get_expansion_transformations`. -/
def expansionTransformations : List Rule :=
  [.de_morgan_reverse, .distributivity, .implication_introduction]

/-- Priority-1 fallback loop of `prove_equivalence_nn` (lines 1292-1301):
for each simplification rule in order, try expression 1 then expression 2,
first applicable match wins. -/
def prio1Choice (c1 c2 : Expr) : List Rule → Option (Rule × Nat)
  | [] => none
  | rl :: rest =>
      if canApplyAnywhere (ruleCheck rl) c1 then some (rl, 1)
      else if canApplyAnywhere (ruleCheck rl) c2 then some (rl, 2)
      else prio1Choice c1 c2 rest

/-- Candidate list built by the priority-2/3 fallback loops (rule-major, then
expression 1 before expression 2), from which `random.choice` picks. -/
def tierCandidates (c1 c2 : Expr) : List Rule → List (Rule × Nat)
  | [] => []
  | rl :: rest =>
      (if canApplyAnywhere (ruleCheck rl) c1 then [(rl, 1)] else []) ++
      (if canApplyAnywhere (ruleCheck rl) c2 then [(rl, 2)] else []) ++
      tierCandidates c1 c2 rest

/-- The random draws one loop iteration of `prove_equivalence_nn` may
consume: the location pick inside `_apply_random_transformation_with_location`,
the `random.choice` over structure candidates, the `random.random() < 0.1`
expansion gate, and the `random.choice` over expansion candidates. -/
structure Rnd where
  locPick : Nat
  structPick : Nat
  expandGate : Bool
  expandPick : Nat

/-- The prioritized fallback selection of `prove_equivalence_nn`
(lines 1287-1331): simplification rules first (deterministic first match
across both expressions), then a random applicable structure rule, then —
behind the 10% gate — a random applicable expansion rule. -/
def fallbackChoose (c1 c2 : Expr) (rnd : Rnd) : Option (Rule × Nat) :=
  match prio1Choice c1 c2 simplificationTransformations with
  | some rw => some rw
  | none =>
      let sc := tierCandidates c1 c2 structureTransformations
      match sc.get? (rnd.structPick % sc.length) with
      | some rw => some rw
      | none =>
          if rnd.expandGate then
            let ec := tierCandidates c1 c2 expansionTransformations
            match ec.get? (rnd.expandPick % ec.length) with
            | some rw => some rw
            | none => none
          else none

/-- One entry of the `applied_transformations` list (the snapshot strings of
the record are kept as expressions; `matched` is the matched subexpression). -/
structure Transformation where
  iteration : Nat
  proposition : Nat
  law : String
  result : Expr
  usedNn : Bool
  matched : Option Expr
deriving DecidableEq, Repr

/-- The running state of the `prove_equivalence_nn` loop. -/
structure NNState where
  c1 : Expr
  c2 : Expr
  transfs : List Transformation
  nnUsed : Nat
deriving DecidableEq, Repr

/-- Result dictionary of `prove_equivalence_nn`. -/
structure NNResult where
  success : Bool
  iterations : Nat
  prop1Final : Expr
  prop2Final : Expr
  transformations : List Transformation
  nnPredictionsUsed : Nat
deriving DecidableEq, Repr

/-- Record the chosen rewrite into the state (the tail of the loop body:
update `current1`/`current2` and append the transformation record). -/
def nnRecord (st : NNState) (i : Nat) (w : Nat) (law : String) (usedNn : Bool)
    (out : Expr × Option Expr) : NNState :=
  let c1 := if w = 1 then out.1 else st.c1
  let c2 := if w = 1 then st.c2 else out.1
  { c1 := c1, c2 := c2,
    transfs := st.transfs ++
      [{ iteration := i, proposition := w, law := law, result := out.1,
         usedNn := usedNn, matched := out.2 }],
    nnUsed := st.nnUsed + (if usedNn then 1 else 0) }

/-- One iteration body of `prove_equivalence_nn` (executed when the two
expressions are not yet equal): query the predictor, apply its rule if it is
applicable anywhere on its target, otherwise fall back to the prioritized
selection; if nothing applies the iteration is consumed with no change. -/
def nnIter (pred : Expr → Expr → Nat × String) (i : Nat) (rnd : Rnd)
    (st : NNState) : NNState :=
  let wt := pred st.c1 st.c2
  let target := if wt.1 = 1 then st.c1 else st.c2
  let nnRule : Option Rule :=
    match lookupRule wt.2 with
    | some rl => if canApplyAnywhere (ruleCheck rl) target then some rl else none
    | none => none
  match nnRule with
  | some rl =>
      nnRecord st i wt.1 wt.2 true
        (applyRandomWithLoc (ruleCheck rl) (ruleApply rl) target rnd.locPick)
  | none =>
      match fallbackChoose st.c1 st.c2 rnd with
      | some (rl, w) =>
          nnRecord st i w (ruleName rl) false
            (applyRandomWithLoc (ruleCheck rl) (ruleApply rl)
              (if w = 1 then st.c1 else st.c2) rnd.locPick)
      | none => st

/-- `are_equal` (syntactic equality via `_nodes_equal`). -/
def areEqualE (e1 e2 : Expr) : Bool := nodesEqual e1 e2

/-- The `for iteration in range(max_iterations)` loop of
`prove_equivalence_nn`, plus the final check after the loop; `remaining`
counts the loop iterations still to run (`maxIter - i`). -/
def nnLoop (pred : Expr → Expr → Nat × String) (rnds : Nat → Rnd)
    (maxIter : Nat) : Nat → Nat → NNState → NNResult
  | 0, _, st =>
      if areEqualE st.c1 st.c2 then
        ⟨true, maxIter, st.c1, st.c2, st.transfs, st.nnUsed⟩
      else ⟨false, maxIter, st.c1, st.c2, st.transfs, st.nnUsed⟩
  | remaining + 1, i, st =>
      if areEqualE st.c1 st.c2 then
        ⟨true, i, st.c1, st.c2, st.transfs, st.nnUsed⟩
      else nnLoop pred rnds maxIter remaining (i + 1) (nnIter pred i (rnds i) st)

/-- `Equivalence.prove_equivalence_nn`: NN-guided proof search with the
predictor and the random stream passed explicitly. -/
def proveEquivalenceNN (pred : Expr → Expr → Nat × String) (rnds : Nat → Rnd)
    (e1 e2 : Expr) (maxIter : Nat) : NNResult :=
  nnLoop pred rnds maxIter maxIter 0 ⟨e1, e2, [], 0⟩

/-- Lexicographic comparison of character lists by code point — the order
Python's `sorted` uses on strings. -/
def charListLe : List Char → List Char → Bool
  | [], _ => true
  | _ :: _, [] => false
  | c :: cs, d :: ds => if c = d then charListLe cs ds else decide (c < d)

/-- Python's `<=` on strings. -/
def nameLe (a b : String) : Bool := charListLe a.data b.data

/-- One step of insertion sort with respect to `nameLe`. -/
def insertSorted (x : String) : List String → List String
  | [] => [x]
  | y :: ys => if nameLe x y then x :: y :: ys else y :: insertSorted x ys

/-- Python's `sorted` on a list of names (insertion sort by `nameLe`). -/
def sortNames (l : List String) : List String :=
  l.foldr insertSorted []

/-- The sorted union of the two symbol tables' names with 'T' and 'F'
discarded (`_verify_semantic_equivalence` lines 60-64; the Python set union
is modelled by deduplication, then `sorted` by insertion sort). -/
def unionNames (vars1 vars2 : List String) : List String :=
  sortNames (((vars1 ++ vars2).dedup).filter fun n => n ≠ "T" && n ≠ "F")

/-- The environment of one expression at bit-pattern `i`: the cell of a name
is set to bit `j` of `i` (with `j` the name's position in `names`) only when
the name is a key of that expression's own table; all other cells keep their
prior value `base`. -/
def assignEnv (names vars : List String) (i : Nat) (base : String → Bool)
    (n : String) : Bool :=
  match names.indexOf? n with
  | some j => if n ∈ vars then i.testBit j else base n
  | none => base n

/-- The enumeration loop of `_verify_semantic_equivalence`: scan the listed
assignments, returning `false` at the first mismatch; the second component
counts the assignments actually evaluated. -/
def verifyScan (mismatch : Nat → Bool) : List Nat → Bool × Nat
  | [] => (true, 0)
  | i :: rest =>
      if mismatch i then (false, 1)
      else
        let rc := verifyScan mismatch rest
        (rc.1, rc.2 + 1)

/-- Does assignment `i` make the two expressions disagree? -/
def assignMismatch (e1 : Expr) (vars1 : List String) (e2 : Expr)
    (vars2 : List String) (base1 base2 : String → Bool) (names : List String)
    (i : Nat) : Bool :=
  evalE (assignEnv names vars1 i base1) e1 != evalE (assignEnv names vars2 i base2) e2

/-- `_verify_semantic_equivalence`: with no variables, evaluate each
expression once and compare; otherwise enumerate the `2^n` bit patterns with
early exit on the first mismatch. -/
def verifySemanticEquivalence (e1 : Expr) (vars1 : List String) (e2 : Expr)
    (vars2 : List String) (base1 base2 : String → Bool) : Bool :=
  let names := unionNames vars1 vars2
  if names.length = 0 then evalE base1 e1 == evalE base2 e2
  else
    (verifyScan (assignMismatch e1 vars1 e2 vars2 base1 base2 names)
      (List.range (2 ^ names.length))).1

/-- The names of the prover methods actually defined on the `Equivalence`
class (there is no `prove_bidirectional`; the bidirectional strategy is
defined as `prove_equivalence_bidirectional`). -/
def equivalenceMethodNames : List String :=
  ["prove_equivalence", "prove_equivalence_nn", "prove_equivalence_bidirectional",
   "prove_by_contrapositive", "prove_by_absurdity", "prove_simplification_nn",
   "prove_with_fallback", "optimize_proof", "prove_and_optimize"]

/-- The projection of a strategy call's result dictionary that
`ProveService.prove` reads (`success`, `iterations`, `nn_predictions_used`,
`transformations`, final expressions, and — for `automatic` — the `method`
key of the winning strategy). -/
structure StratOutcome where
  success : Bool
  iterations : Nat
  nnPredictionsUsed : Nat
  transformations : List Transformation
  prop1Final : Expr
  prop2Final : Expr
  methodTag : String
deriving DecidableEq, Repr

/-- The response record assembled by `ProveService.prove` (the truth table
and display strings are omitted; the fields the claims speak about are
kept). -/
structure ServiceResult where
  success : Bool
  equivalent : Bool
  methodUsed : String
  iterations : Nat
  nnPredictions : Nat
  prop1Final : Expr
  prop2Final : Expr
  transformations : List Transformation
deriving DecidableEq, Repr

/-- Build the final `Result.success` payload from a strategy outcome. -/
def serviceFromOutcome (methodUsed : String) (o : StratOutcome) : ServiceResult :=
  ⟨o.success, true, methodUsed, o.iterations, o.nnPredictionsUsed,
   o.prop1Final, o.prop2Final, o.transformations⟩

/-- `ProveService.prove` on two already-parsed propositions.  The semantic
check and syntactic-equality short circuits come first; only then is a proof
strategy dispatched.  The strategy calls themselves (randomized, driven by
the trained models) are abstracted as the oracle `strat`; an unknown method
name leaves `result = None` and the subsequent `result.get` raises, and the
`bidirectional` branch invokes `eq.prove_bidirectional`, an attribute the
`Equivalence` class does not define, raising `AttributeError` — both modelled
as `Except.error`. -/
def proveService (e1 : Expr) (vars1 : List String) (e2 : Expr)
    (vars2 : List String) (base1 base2 : String → Bool) (method : String)
    (strat : String → StratOutcome) : Except String ServiceResult :=
  if verifySemanticEquivalence e1 vars1 e2 vars2 base1 base2 = false then
    .ok ⟨true, false, "semantic_verification", 0, 0, e1, e2, []⟩
  else if areEqualE e1 e2 then
    .ok ⟨true, true, "syntactic_equality", 0, 0, e1, e2, []⟩
  else if method = "automatic" then
    .ok (serviceFromOutcome (strat "automatic").methodTag (strat "automatic"))
  else if method = "direct" then
    .ok (serviceFromOutcome method (strat "direct"))
  else if method = "contrapositive" then
    .ok (serviceFromOutcome method (strat "contrapositive"))
  else if method = "absurd" then
    .ok (serviceFromOutcome method (strat "absurd"))
  else if method = "bidirectional" then
    if "prove_bidirectional" ∈ equivalenceMethodNames then
      .ok (serviceFromOutcome method (strat "bidirectional"))
    else .error "AttributeError: 'Equivalence' object has no attribute 'prove_bidirectional'"
  else .error "AttributeError: 'NoneType' object has no attribute 'get'"

/-- The `success`/`iterations` projection of one strategy attempt inside
`prove_with_fallback`. -/
structure StratResult where
  success : Bool
  iterations : Nat
deriving DecidableEq, Repr

/-- Result of `prove_with_fallback`: overall success, the `method` key of the
returned dictionary, and `total_iterations`. -/
structure FallbackOut where
  success : Bool
  method : String
  totalIterations : Nat
deriving DecidableEq, Repr

/-- `Equivalence.prove_with_fallback`: direct proof, then contrapositive,
then absurdity, accumulating `total_iterations` over the attempts and
stopping at the first success.  The three randomized strategy calls are
abstracted as thunks; `prove_by_contrapositive` / `prove_by_absurdity` tag
their results with `method = 'contrapositive'` / `'absurdity'`, and the
orchestrator tags the direct result with `'direct'` and total failure with
`'all_failed'`. -/
def proveWithFallback (direct contra absurd : Unit → StratResult) : FallbackOut :=
  let d := direct ()
  let ti := d.iterations
  if d.success then ⟨true, "direct", ti⟩
  else
    let c := contra ()
    let ti := ti + c.iterations
    if c.success then ⟨true, "contrapositive", ti⟩
    else
      let a := absurd ()
      let ti := ti + a.iterations
      if a.success then ⟨true, "absurdity", ti⟩
      else ⟨false, "all_failed", ti⟩

/-- Negation operator characters of the tokenizer. -/
def isOpNot (c : Char) : Bool := c = '~' || c = '!' || c = '¬'

/-- AND operator characters. -/
def isOpAnd (c : Char) : Bool := c = '^' || c = '&' || c = '*'

/-- OR operator characters (note the lowercase letter 'v' is one of them). -/
def isOpOr (c : Char) : Bool := c = 'v' || c = '|' || c = '+'

/-- Identifier continuation characters (`isalnum() or '_'`). -/
def isIdentChar (c : Char) : Bool := c.isAlphanum || c = '_'

/-- The maximal run of letters from the current position (`Lexer.peek_word`
before uppercasing). -/
def alphaRun (cs : List Char) : List Char := cs.takeWhile Char.isAlpha

/-- `Lexer.peek_word`: the uppercased maximal letter run. -/
def wordOf (cs : List Char) : String := String.mk ((alphaRun cs).map Char.toUpper)

/-- Tokens produced by the `Lexer` (EOF is represented by the end of the
token list). -/
inductive Tok where
  | atomT : String → Tok
  | ttrue
  | tfalse
  | tnot
  | tand
  | tor
  | timpl
  | lparen
  | rparen
deriving DecidableEq, Repr

/-- `Lexer.get_next_token`: one token from the head of the input, `none` at
end of input.  Branch order follows the source: whitespace; `->`/`=>`; `→`;
negation, AND and OR symbol characters; parentheses; case-insensitive
keywords (via `peek_word`); identifiers; otherwise a `ParseError`.  A '-' or
'=' not followed by '>' falls through every later branch (it is not a letter)
and raises, which is folded into the error here. -/
def wordToken (c : Char) (cs : List Char) : Except String (Option Tok × List Char) :=
  if wordOf (c :: cs) = "AND" then .ok (some .tand, (c :: cs).drop 3)
  else if wordOf (c :: cs) = "OR" then .ok (some .tor, (c :: cs).drop 2)
  else if wordOf (c :: cs) = "NOT" then .ok (some .tnot, (c :: cs).drop 3)
  else if wordOf (c :: cs) = "IMPLIES" then .ok (some .timpl, (c :: cs).drop 7)
  else if wordOf (c :: cs) = "TRUE" then .ok (some .ttrue, (c :: cs).drop 4)
  else if wordOf (c :: cs) = "FALSE" then .ok (some .tfalse, (c :: cs).drop 5)
  else if wordOf (c :: cs) = "T" then .ok (some .ttrue, cs)
  else if wordOf (c :: cs) = "F" then .ok (some .tfalse, cs)
  else if c.isAlpha then
    .ok (some (.atomT (String.mk ((c :: cs).takeWhile isIdentChar))),
         (c :: cs).dropWhile isIdentChar)
  else .error "Unexpected character"

def nextToken : List Char → Except String (Option Tok × List Char)
  | [] => .ok (none, [])
  | c :: cs =>
      if c.isWhitespace then nextToken cs
      else if c = '-' || c = '=' then
        if cs.head? = some '>' then .ok (some .timpl, cs.tail)
        else .error "Unexpected character"
      else if c = '→' then .ok (some .timpl, cs)
      else if isOpNot c then .ok (some .tnot, cs)
      else if isOpAnd c then .ok (some .tand, cs)
      else if isOpOr c then .ok (some .tor, cs)
      else if c = '(' then .ok (some .lparen, cs)
      else if c = ')' then .ok (some .rparen, cs)
      else wordToken c cs

theorem wordToken_consume {c : Char} {cs rest : List Char} {t : Tok}
    (h : wordToken c cs = .ok (some t, rest)) : rest.length < cs.length + 1 := by
  unfold wordToken at h
  split at h
  · simp only [Except.ok.injEq, Prod.mk.injEq] at h
    obtain ⟨-, h⟩ := h
    subst h
    simp only [List.length_drop, List.length_cons]
    omega
  split at h
  · simp only [Except.ok.injEq, Prod.mk.injEq] at h
    obtain ⟨-, h⟩ := h
    subst h
    simp only [List.length_drop, List.length_cons]
    omega
  split at h
  · simp only [Except.ok.injEq, Prod.mk.injEq] at h
    obtain ⟨-, h⟩ := h
    subst h
    simp only [List.length_drop, List.length_cons]
    omega
  split at h
  · simp only [Except.ok.injEq, Prod.mk.injEq] at h
    obtain ⟨-, h⟩ := h
    subst h
    simp only [List.length_drop, List.length_cons]
    omega
  split at h
  · simp only [Except.ok.injEq, Prod.mk.injEq] at h
    obtain ⟨-, h⟩ := h
    subst h
    simp only [List.length_drop, List.length_cons]
    omega
  split at h
  · simp only [Except.ok.injEq, Prod.mk.injEq] at h
    obtain ⟨-, h⟩ := h
    subst h
    simp only [List.length_drop, List.length_cons]
    omega
  split at h
  · simp only [Except.ok.injEq, Prod.mk.injEq] at h
    obtain ⟨-, h⟩ := h
    subst h
    simp
  split at h
  · simp only [Except.ok.injEq, Prod.mk.injEq] at h
    obtain ⟨-, h⟩ := h
    subst h
    simp
  split at h
  · rename_i halpha
    simp only [Except.ok.injEq, Prod.mk.injEq] at h
    obtain ⟨-, h⟩ := h
    subst h
    have hid : isIdentChar c = true := by
      simp [isIdentChar, Char.isAlphanum, halpha]
    rw [List.dropWhile_cons, if_pos hid]
    have := (List.dropWhile_suffix (l := cs) isIdentChar).length_le
    omega
  · exact absurd h (by simp)

theorem nextToken_consume {cs rest : List Char} {t : Tok}
    (h : nextToken cs = .ok (some t, rest)) : rest.length < cs.length := by
  induction cs with
  | nil => simp [nextToken] at h
  | cons c cs ih =>
      unfold nextToken at h
      split at h
      · exact Nat.lt_succ_of_lt (ih h)
      split at h
      · split at h
        · simp only [Except.ok.injEq, Prod.mk.injEq] at h
          obtain ⟨-, h⟩ := h
          subst h
          have := List.length_tail cs
          simp only [List.length_cons]
          omega
        · exact absurd h (by simp)
      split at h
      · simp only [Except.ok.injEq, Prod.mk.injEq] at h
        obtain ⟨-, h⟩ := h
        subst h
        simp
      split at h
      · simp only [Except.ok.injEq, Prod.mk.injEq] at h
        obtain ⟨-, h⟩ := h
        subst h
        simp
      split at h
      · simp only [Except.ok.injEq, Prod.mk.injEq] at h
        obtain ⟨-, h⟩ := h
        subst h
        simp
      split at h
      · simp only [Except.ok.injEq, Prod.mk.injEq] at h
        obtain ⟨-, h⟩ := h
        subst h
        simp
      split at h
      · simp only [Except.ok.injEq, Prod.mk.injEq] at h
        obtain ⟨-, h⟩ := h
        subst h
        simp
      split at h
      · simp only [Except.ok.injEq, Prod.mk.injEq] at h
        obtain ⟨-, h⟩ := h
        subst h
        simp
      · have := wordToken_consume h
        simp only [List.length_cons]
        omega

/-- The tokenization loop with explicit fuel (each produced token consumes at
least one character, so `length + 1` calls always suffice). -/
def tokenizeFuel : Nat → List Char → Except String (List Tok)
  | 0, _ => .error "out of fuel"
  | fuel + 1, cs =>
      match nextToken cs with
      | .error e => .error e
      | .ok (none, _) => .ok []
      | .ok (some t, rest) =>
          match tokenizeFuel fuel rest with
          | .error e => .error e
          | .ok ts => .ok (t :: ts)

/-- The tokenization loop: `get_next_token` until EOF
(`Parser.eat` pulls tokens one at a time; the list is their sequence). -/
def tokenizeAll (cs : List Char) : Except String (List Tok) :=
  tokenizeFuel (cs.length + 1) cs

theorem tokenizeFuel_congr : ∀ fuel1 fuel2 cs, cs.length < fuel1 →
    cs.length < fuel2 → tokenizeFuel fuel1 cs = tokenizeFuel fuel2 cs := by
  intro fuel1
  induction fuel1 with
  | zero => intro fuel2 cs h1; omega
  | succ f1 ih =>
      intro fuel2 cs h1 h2
      cases fuel2 with
      | zero => omega
      | succ f2 =>
          simp only [tokenizeFuel]
          cases hnt : nextToken cs with
          | error e => rfl
          | ok pr =>
              cases pr with
              | mk t rest =>
                  cases t with
                  | none => rfl
                  | some tok =>
                      have hlt := nextToken_consume hnt
                      dsimp only
                      rw [ih f2 rest (by omega) (by omega)]

mutual

/-- `Parser.expression`: delegates to `implication`.  All parser functions
take a fuel argument (decremented on every call) standing in for Python's
unbounded recursion; parse errors are `none`. -/
def parseExpression : Nat → List Tok → Option (Expr × List Tok)
  | 0, _ => none
  | f + 1, ts => parseImplication f ts

/-- `Parser.implication`: `disjunction (IMPLIES implication)?`,
right-associative. -/
def parseImplication : Nat → List Tok → Option (Expr × List Tok)
  | 0, _ => none
  | f + 1, ts =>
      match parseDisjunction f ts with
      | none => none
      | some (l, rest) =>
          match rest with
          | .timpl :: rest2 =>
              match parseImplication f rest2 with
              | none => none
              | some (r, rest3) => some (.impl l r, rest3)
          | _ => some (l, rest)

/-- `Parser.disjunction`: `conjunction (OR conjunction)*`. -/
def parseDisjunction : Nat → List Tok → Option (Expr × List Tok)
  | 0, _ => none
  | f + 1, ts =>
      match parseConjunction f ts with
      | none => none
      | some (l, rest) => parseDisjLoop f l rest

/-- The `while current_token is OR` loop of `Parser.disjunction`,
left-associative accumulation. -/
def parseDisjLoop : Nat → Expr → List Tok → Option (Expr × List Tok)
  | 0, _, _ => none
  | f + 1, acc, ts =>
      match ts with
      | .tor :: rest =>
          match parseConjunction f rest with
          | none => none
          | some (r, rest2) => parseDisjLoop f (.disj acc r) rest2
      | _ => some (acc, ts)

/-- `Parser.conjunction`: `unary (AND unary)*`. -/
def parseConjunction : Nat → List Tok → Option (Expr × List Tok)
  | 0, _ => none
  | f + 1, ts =>
      match parseUnary f ts with
      | none => none
      | some (l, rest) => parseConjLoop f l rest

/-- The `while current_token is AND` loop of `Parser.conjunction`. -/
def parseConjLoop : Nat → Expr → List Tok → Option (Expr × List Tok)
  | 0, _, _ => none
  | f + 1, acc, ts =>
      match ts with
      | .tand :: rest =>
          match parseUnary f rest with
          | none => none
          | some (r, rest2) => parseConjLoop f (.conj acc r) rest2
      | _ => some (acc, ts)

/-- `Parser.unary`: `NOT unary | primary`. -/
def parseUnary : Nat → List Tok → Option (Expr × List Tok)
  | 0, _ => none
  | f + 1, ts =>
      match ts with
      | .tnot :: rest =>
          match parseUnary f rest with
          | none => none
          | some (a, rest2) => some (.neg a, rest2)
      | _ => parsePrimary f ts

/-- `Parser.primary`: `ATOM | TRUE | FALSE | LPAREN expression RPAREN`. -/
def parsePrimary : Nat → List Tok → Option (Expr × List Tok)
  | 0, _ => none
  | f + 1, ts =>
      match ts with
      | .atomT n :: rest => some (.atom n, rest)
      | .ttrue :: rest => some (.const true, rest)
      | .tfalse :: rest => some (.const false, rest)
      | .lparen :: rest =>
          match parseExpression f rest with
          | none => none
          | some (e, rest2) =>
              match rest2 with
              | .rparen :: rest3 => some (e, rest3)
              | _ => none
      | _ => none

end

/-- In-order list of the atom names of an expression (with repetitions) —
the order in which the parser's `get_proposition` encounters them. -/
def atomNames : Expr → List String
  | .atom n => [n]
  | .const _ => []
  | .neg a => atomNames a
  | .conj a b => atomNames a ++ atomNames b
  | .disj a b => atomNames a ++ atomNames b
  | .impl a b => atomNames a ++ atomNames b

/-- The parser's `_propositions` symbol table, as the list of its keys in
insertion order (first occurrence of each distinct atom name; truth constants
are never inserted). -/
def symbolTable (e : Expr) : List String := (atomNames e).eraseDups

/-- `parse_proposition`: tokenize and run the recursive-descent parser,
requiring all tokens to be consumed (`Unexpected token after expression`
otherwise); returns the expression together with the symbol-table keys.  The
parser fuel `10 * tokens + 10` dominates the recursion depth of the source's
fuel-free descent. -/
def parseProp (s : String) : Option (Expr × List String) :=
  match tokenizeAll s.data with
  | .error _ => none
  | .ok ts =>
      match parseExpression (10 * ts.length + 10) ts with
      | some (e, []) => some (e, symbolTable e)
      | _ => none

/-- Canonical rendering, character level (`OperatorNode.__str__` /
`AtomicNode.__str__` with the `LogicOperator.__repr__` symbols `¬ ^ v →`). -/
def renderChars : Expr → List Char
  | .atom n => n.data
  | .const b => (constText b).data
  | .neg a => '(' :: '¬' :: renderChars a ++ [')']
  | .conj a b => '(' :: renderChars a ++ ' ' :: '^' :: ' ' :: renderChars b ++ [')']
  | .disj a b => '(' :: renderChars a ++ ' ' :: 'v' :: ' ' :: renderChars b ++ [')']
  | .impl a b => '(' :: renderChars a ++ ' ' :: '→' :: ' ' :: renderChars b ++ [')']

/-- Canonical string rendering (`str(proposition)`). -/
def render (e : Expr) : String := String.mk (renderChars e)

/-- The token sequence of a rendered expression. -/
def tokensOf : Expr → List Tok
  | .atom n => [.atomT n]
  | .const b => [if b then .ttrue else .tfalse]
  | .neg a => .lparen :: .tnot :: tokensOf a ++ [.rparen]
  | .conj a b => .lparen :: tokensOf a ++ .tand :: tokensOf b ++ [.rparen]
  | .disj a b => .lparen :: tokensOf a ++ .tor :: tokensOf b ++ [.rparen]
  | .impl a b => .lparen :: tokensOf a ++ .timpl :: tokensOf b ++ [.rparen]

/-- An atom name as the tokenizer can produce it: nonempty, made of
identifier characters, starting with a letter that is not the OR operator
letter 'v', and whose leading letter run is not a keyword. -/
def validName (n : String) : Bool :=
  match n.data with
  | [] => false
  | c :: cs =>
      c.isAlpha && !(c = 'v') && (c :: cs).all isIdentChar &&
      !(wordOf (c :: cs) = "AND") && !(wordOf (c :: cs) = "OR") &&
      !(wordOf (c :: cs) = "NOT") && !(wordOf (c :: cs) = "IMPLIES") &&
      !(wordOf (c :: cs) = "TRUE") && !(wordOf (c :: cs) = "FALSE") &&
      !(wordOf (c :: cs) = "T") && !(wordOf (c :: cs) = "F")

/-- Every atom name of the expression is tokenizer-producible. -/
def wfExpr : Expr → Bool
  | .atom n => validName n
  | .const _ => true
  | .neg a => wfExpr a
  | .conj a b => wfExpr a && wfExpr b
  | .disj a b => wfExpr a && wfExpr b
  | .impl a b => wfExpr a && wfExpr b

/-- A fuel budget sufficient for the recursive descent over the canonical
token sequence of an expression (used to discharge the fuel bookkeeping of
the fueled parser embedding). -/
def pfuel : Expr → Nat
  | .atom _ => 1
  | .const _ => 1
  | .neg a => pfuel a + 8
  | .conj a b => pfuel a + pfuel b + 12
  | .disj a b => pfuel a + pfuel b + 12
  | .impl a b => pfuel a + pfuel b + 12

/-- Every ATOM token in the list carries a tokenizer-producible name. -/
def tokAtomsOk (ts : List Tok) : Bool :=
  ts.all fun t =>
    match t with
    | .atomT n => validName n
    | _ => true

theorem isConst_false_split {x : Expr} (h : isConst x = false) :
    isTrueConst x = false ∧ isFalseConst x = false := by
  cases x <;> simp_all [isConst, isTrueConst, isFalseConst]

/-- C5: for every one of the seventeen equivalence laws and every expression,
calling the law's apply function when its check predicate is false returns
the expression itself unchanged. -/
theorem c5_apply_noop_when_check_false (r : Rule) (e : Expr)
    (h : ruleCheck r e = false) : ruleApply r e = e := by
  cases r
  case double_negation =>
    simp only [ruleCheck] at h
    simp only [ruleApply]
    unfold apply_double_negation
    split
    · simp [check_double_negation] at h
    · rfl
  case de_morgan =>
    simp only [ruleCheck] at h
    simp only [ruleApply]
    unfold apply_de_morgan
    split
    · simp [check_de_morgan] at h
    · simp [check_de_morgan] at h
    · rfl
  case de_morgan_reverse =>
    simp only [ruleCheck] at h
    simp only [ruleApply]
    unfold apply_de_morgan_reverse
    split
    · simp [check_de_morgan_reverse] at h
    · simp [check_de_morgan_reverse] at h
    · rfl
  case commutativity =>
    simp only [ruleCheck] at h
    simp only [ruleApply]
    unfold apply_commutativity
    split
    · simp [check_commutativity] at h
    · simp [check_commutativity] at h
    · rfl
  case associativity =>
    simp only [ruleCheck] at h
    simp only [ruleApply]
    unfold apply_associativity
    split
    · simp [check_associativity] at h
    · simp [check_associativity] at h
    · rfl
  case idempotence =>
    simp only [ruleCheck] at h
    simp only [ruleApply]
    unfold apply_idempotence
    split
    · simp only [check_idempotence] at h
      simp [h]
    · simp only [check_idempotence] at h
      simp [h]
    · rfl
  case absorption =>
    simp only [ruleCheck] at h
    simp only [ruleApply]
    unfold apply_absorption
    split
    · simp only [check_absorption, Bool.or_eq_false_iff] at h
      simp [h.1, h.2]
    · simp only [check_absorption, Bool.or_eq_false_iff] at h
      simp [h.1, h.2]
    · rfl
  case distributivity =>
    simp only [ruleCheck] at h
    simp only [ruleApply]
    unfold apply_distributivity
    split
    · split
      · simp [check_distributivity] at h
      · split
        · simp [check_distributivity] at h
        · rfl
    · split
      · simp [check_distributivity] at h
      · split
        · simp [check_distributivity] at h
        · rfl
    · rfl
  case factoring =>
    simp only [ruleCheck] at h
    simp only [ruleApply]
    unfold apply_factoring
    split
    · simp only [check_factoring, Bool.or_eq_false_iff] at h
      simp [h.1.1.1, h.1.1.2, h.1.2, h.2]
    · simp only [check_factoring, Bool.or_eq_false_iff] at h
      simp [h.1.1.1, h.1.1.2, h.1.2, h.2]
    · rfl
  case implication_elimination =>
    simp only [ruleCheck] at h
    simp only [ruleApply]
    unfold apply_implication_elimination
    split
    · simp [check_implication_elimination] at h
    · rfl
  case implication_introduction =>
    simp only [ruleCheck] at h
    simp only [ruleApply]
    unfold apply_implication_introduction
    split
    · simp [check_implication_introduction] at h
    · rfl
  case contraposition =>
    simp only [ruleCheck] at h
    simp only [ruleApply]
    unfold apply_contraposition
    split
    · simp [check_contraposition] at h
    · rfl
  case identity =>
    simp only [ruleCheck] at h
    simp only [ruleApply]
    unfold apply_identity
    split
    · simp only [check_identity, Bool.or_eq_false_iff] at h
      simp [h.1, h.2]
    · simp only [check_identity, Bool.or_eq_false_iff] at h
      simp [h.1, h.2]
    · rfl
  case domination =>
    simp only [ruleCheck] at h
    simp only [ruleApply]
    unfold apply_domination
    split
    · simp only [check_domination] at h
      simp [h]
    · simp only [check_domination] at h
      simp [h]
    · rfl
  case negation_constant =>
    simp only [ruleCheck] at h
    simp only [ruleApply]
    unfold apply_negation_constant
    split
    · simp only [check_negation_constant] at h
      have := isConst_false_split h
      simp [this.1, this.2]
    · rfl
  case complement =>
    simp only [ruleCheck] at h
    simp only [ruleApply]
    unfold apply_complement
    split
    · simp only [check_complement] at h
      simp [h]
    · simp only [check_complement] at h
      simp [h]
    · rfl
  case implication_constant =>
    simp only [ruleCheck] at h
    simp only [ruleApply]
    unfold apply_implication_constant
    split
    · simp only [check_implication_constant, Bool.or_eq_false_iff] at h
      have h1 := isConst_false_split h.1
      have h2 := isConst_false_split h.2
      simp [h1.1, h1.2, h2.1, h2.2]
    · rfl

/-- Witness for C5: commutativity does not fire on an implication and leaves
it untouched. -/
theorem c5_witness :
    ruleCheck Rule.commutativity (Expr.impl (Expr.atom "p") (Expr.atom "q")) = false ∧
    ruleApply Rule.commutativity (Expr.impl (Expr.atom "p") (Expr.atom "q")) =
      Expr.impl (Expr.atom "p") (Expr.atom "q") :=
  ⟨by decide, c5_apply_noop_when_check_false Rule.commutativity _ (by decide)⟩

theorem eq_of_isTrueConst {x : Expr} (h : isTrueConst x = true) : x = .const true := by
  cases x with
  | const b => cases b <;> simp_all [isTrueConst]
  | atom n => simp [isTrueConst] at h
  | neg a => simp [isTrueConst] at h
  | conj a b => simp [isTrueConst] at h
  | disj a b => simp [isTrueConst] at h
  | impl a b => simp [isTrueConst] at h

theorem eq_of_isFalseConst {x : Expr} (h : isFalseConst x = true) : x = .const false := by
  cases x with
  | const b => cases b <;> simp_all [isFalseConst]
  | atom n => simp [isFalseConst] at h
  | neg a => simp [isFalseConst] at h
  | conj a b => simp [isFalseConst] at h
  | disj a b => simp [isFalseConst] at h
  | impl a b => simp [isFalseConst] at h

/-- On expressions whose atoms avoid the reserved spellings "T"/"F",
`_nodes_equal` coincides with structural equality. -/
theorem noReserved_nodesEqual {a : Expr} : ∀ {b : Expr},
    noReservedAtoms a = true → noReservedAtoms b = true →
    nodesEqual a b = true → a = b := by
  induction a with
  | atom n =>
      intro b ha hb h
      cases b with
      | atom m =>
          simp only [nodesEqual, beq_iff_eq] at h
          rw [h]
      | const c => cases c <;> simp_all [nodesEqual, noReservedAtoms, constText]
      | neg x => simp [nodesEqual] at h
      | conj x y => simp [nodesEqual] at h
      | disj x y => simp [nodesEqual] at h
      | impl x y => simp [nodesEqual] at h
  | const c =>
      intro b ha hb h
      cases b with
      | atom m => cases c <;> simp_all [nodesEqual, noReservedAtoms, constText]
      | const d => cases c <;> cases d <;> simp_all [nodesEqual, constText]
      | neg x => simp [nodesEqual] at h
      | conj x y => simp [nodesEqual] at h
      | disj x y => simp [nodesEqual] at h
      | impl x y => simp [nodesEqual] at h
  | neg x ih =>
      intro b ha hb h
      cases b with
      | neg y =>
          simp only [nodesEqual] at h
          exact congrArg Expr.neg (ih ha hb h)
      | atom m => simp [nodesEqual] at h
      | const d => simp [nodesEqual] at h
      | conj u v => simp [nodesEqual] at h
      | disj u v => simp [nodesEqual] at h
      | impl u v => simp [nodesEqual] at h
  | conj x y ihx ihy =>
      intro b ha hb h
      cases b with
      | conj u v =>
          simp only [nodesEqual, Bool.and_eq_true] at h
          simp only [noReservedAtoms, Bool.and_eq_true] at ha hb
          rw [ihx ha.1 hb.1 h.1, ihy ha.2 hb.2 h.2]
      | atom m => simp [nodesEqual] at h
      | const d => simp [nodesEqual] at h
      | neg u => simp [nodesEqual] at h
      | disj u v => simp [nodesEqual] at h
      | impl u v => simp [nodesEqual] at h
  | disj x y ihx ihy =>
      intro b ha hb h
      cases b with
      | disj u v =>
          simp only [nodesEqual, Bool.and_eq_true] at h
          simp only [noReservedAtoms, Bool.and_eq_true] at ha hb
          rw [ihx ha.1 hb.1 h.1, ihy ha.2 hb.2 h.2]
      | atom m => simp [nodesEqual] at h
      | const d => simp [nodesEqual] at h
      | neg u => simp [nodesEqual] at h
      | conj u v => simp [nodesEqual] at h
      | impl u v => simp [nodesEqual] at h
  | impl x y ihx ihy =>
      intro b ha hb h
      cases b with
      | impl u v =>
          simp only [nodesEqual, Bool.and_eq_true] at h
          simp only [noReservedAtoms, Bool.and_eq_true] at ha hb
          rw [ihx ha.1 hb.1 h.1, ihy ha.2 hb.2 h.2]
      | atom m => simp [nodesEqual] at h
      | const d => simp [nodesEqual] at h
      | neg u => simp [nodesEqual] at h
      | conj u v => simp [nodesEqual] at h
      | disj u v => simp [nodesEqual] at h

theorem sound_double_negation (env : String → Bool) (e : Expr) :
    evalE env (apply_double_negation e) = evalE env e := by
  unfold apply_double_negation
  split
  · simp [evalE]
  · rfl

theorem sound_de_morgan (env : String → Bool) (e : Expr) :
    evalE env (apply_de_morgan e) = evalE env e := by
  unfold apply_de_morgan
  split
  · rename_i a b
    simp only [evalE]
    cases evalE env a <;> cases evalE env b <;> simp
  · rename_i a b
    simp only [evalE]
    cases evalE env a <;> cases evalE env b <;> simp
  · rfl

theorem sound_de_morgan_reverse (env : String → Bool) (e : Expr) :
    evalE env (apply_de_morgan_reverse e) = evalE env e := by
  unfold apply_de_morgan_reverse
  split
  · rename_i a b
    simp only [evalE]
    cases evalE env a <;> cases evalE env b <;> simp
  · rename_i a b
    simp only [evalE]
    cases evalE env a <;> cases evalE env b <;> simp
  · rfl

theorem sound_commutativity (env : String → Bool) (e : Expr) :
    evalE env (apply_commutativity e) = evalE env e := by
  unfold apply_commutativity
  split
  · rename_i a b
    simp only [evalE]
    cases evalE env a <;> cases evalE env b <;> simp
  · rename_i a b
    simp only [evalE]
    cases evalE env a <;> cases evalE env b <;> simp
  · rfl

theorem sound_associativity (env : String → Bool) (e : Expr) :
    evalE env (apply_associativity e) = evalE env e := by
  unfold apply_associativity
  split
  · rename_i p q r
    simp only [evalE]
    cases evalE env p <;> cases evalE env q <;> cases evalE env r <;> simp
  · rename_i p q r
    simp only [evalE]
    cases evalE env p <;> cases evalE env q <;> cases evalE env r <;> simp
  · rfl

theorem sound_idempotence (env : String → Bool) (e : Expr)
    (hres : noReservedAtoms e = true) :
    evalE env (apply_idempotence e) = evalE env e := by
  unfold apply_idempotence
  split
  · rename_i a b
    simp only [noReservedAtoms, Bool.and_eq_true] at hres
    split_ifs with h1
    · have he := noReserved_nodesEqual hres.1 hres.2 h1
      subst he
      simp only [evalE]
      cases evalE env a <;> simp
    · rfl
  · rename_i a b
    simp only [noReservedAtoms, Bool.and_eq_true] at hres
    split_ifs with h1
    · have he := noReserved_nodesEqual hres.1 hres.2 h1
      subst he
      simp only [evalE]
      cases evalE env a <;> simp
    · rfl
  · rfl

theorem sound_absorption (env : String → Bool) (e : Expr)
    (hres : noReservedAtoms e = true) :
    evalE env (apply_absorption e) = evalE env e := by
  unfold apply_absorption
  split
  · rename_i l r
    split_ifs with h1 h2
    · cases r with
      | conj x y =>
          simp only [noReservedAtoms, Bool.and_eq_true] at hres
          simp only [absorbRight, Bool.or_eq_true] at h1
          rcases h1 with h1 | h1
          · have he := noReserved_nodesEqual hres.1 hres.2.1 h1
            subst he
            simp only [evalE]
            cases evalE env l <;> simp
          · have he := noReserved_nodesEqual hres.1 hres.2.2 h1
            subst he
            simp only [evalE]
            cases evalE env l <;> cases evalE env x <;> simp
      | atom n => simp [absorbRight] at h1
      | const b => simp [absorbRight] at h1
      | neg a => simp [absorbRight] at h1
      | disj a b => simp [absorbRight] at h1
      | impl a b => simp [absorbRight] at h1
    · cases l with
      | conj x y =>
          simp only [noReservedAtoms, Bool.and_eq_true] at hres
          simp only [absorbRight, Bool.or_eq_true] at h2
          rcases h2 with h2 | h2
          · have he := noReserved_nodesEqual hres.2 hres.1.1 h2
            rw [← he]
            simp only [evalE]
            cases evalE env r <;> simp
          · have he := noReserved_nodesEqual hres.2 hres.1.2 h2
            rw [← he]
            simp only [evalE]
            cases evalE env r <;> cases evalE env x <;> simp
      | atom n => simp [absorbRight] at h2
      | const b => simp [absorbRight] at h2
      | neg a => simp [absorbRight] at h2
      | disj a b => simp [absorbRight] at h2
      | impl a b => simp [absorbRight] at h2
    · rfl
  · rename_i l r
    split_ifs with h1 h2
    · cases r with
      | disj x y =>
          simp only [noReservedAtoms, Bool.and_eq_true] at hres
          simp only [absorbRightOr, Bool.or_eq_true] at h1
          rcases h1 with h1 | h1
          · have he := noReserved_nodesEqual hres.1 hres.2.1 h1
            subst he
            simp only [evalE]
            cases evalE env l <;> simp
          · have he := noReserved_nodesEqual hres.1 hres.2.2 h1
            subst he
            simp only [evalE]
            cases evalE env l <;> cases evalE env x <;> simp
      | atom n => simp [absorbRightOr] at h1
      | const b => simp [absorbRightOr] at h1
      | neg a => simp [absorbRightOr] at h1
      | conj a b => simp [absorbRightOr] at h1
      | impl a b => simp [absorbRightOr] at h1
    · cases l with
      | disj x y =>
          simp only [noReservedAtoms, Bool.and_eq_true] at hres
          simp only [absorbRightOr, Bool.or_eq_true] at h2
          rcases h2 with h2 | h2
          · have he := noReserved_nodesEqual hres.2 hres.1.1 h2
            rw [← he]
            simp only [evalE]
            cases evalE env r <;> simp
          · have he := noReserved_nodesEqual hres.2 hres.1.2 h2
            rw [← he]
            simp only [evalE]
            cases evalE env r <;> cases evalE env x <;> simp
      | atom n => simp [absorbRightOr] at h2
      | const b => simp [absorbRightOr] at h2
      | neg a => simp [absorbRightOr] at h2
      | conj a b => simp [absorbRightOr] at h2
      | impl a b => simp [absorbRightOr] at h2
    · rfl
  · rfl

theorem sound_distributivity (env : String → Bool) (e : Expr) :
    evalE env (apply_distributivity e) = evalE env e := by
  cases e with
  | disj l r =>
      cases r with
      | conj q s =>
          simp only [apply_distributivity, evalE]
          cases evalE env l <;> simp
      | atom n =>
          cases l <;>
            first
              | rfl
              | (simp only [apply_distributivity, evalE]
                 cases hn : env n <;> simp [hn])
      | const b =>
          cases l <;>
            first
              | rfl
              | (simp only [apply_distributivity, evalE]
                 cases b <;> simp)
      | neg x =>
          cases l <;>
            first
              | rfl
              | (simp only [apply_distributivity, evalE]
                 cases evalE env x <;> simp)
      | disj x y =>
          cases l <;>
            first
              | rfl
              | (simp only [apply_distributivity, evalE]
                 cases evalE env x <;> cases evalE env y <;> simp)
      | impl x y =>
          cases l <;>
            first
              | rfl
              | (simp only [apply_distributivity, evalE]
                 cases evalE env x <;> cases evalE env y <;> simp)
  | conj l r =>
      cases r with
      | disj q s =>
          simp only [apply_distributivity, evalE]
          cases evalE env l <;> simp
      | atom n =>
          cases l <;>
            first
              | rfl
              | (simp only [apply_distributivity, evalE]
                 cases hn : env n <;> simp [hn])
      | const b =>
          cases l <;>
            first
              | rfl
              | (simp only [apply_distributivity, evalE]
                 cases b <;> simp)
      | neg x =>
          cases l <;>
            first
              | rfl
              | (simp only [apply_distributivity, evalE]
                 cases evalE env x <;> simp)
      | conj x y =>
          cases l <;>
            first
              | rfl
              | (simp only [apply_distributivity, evalE]
                 cases evalE env x <;> cases evalE env y <;> simp)
      | impl x y =>
          cases l <;>
            first
              | rfl
              | (simp only [apply_distributivity, evalE]
                 cases evalE env x <;> cases evalE env y <;> simp)
  | atom n => rfl
  | const b => rfl
  | neg a => rfl
  | impl a b => rfl

theorem sound_factoring (env : String → Bool) (e : Expr)
    (hres : noReservedAtoms e = true) :
    evalE env (apply_factoring e) = evalE env e := by
  unfold apply_factoring
  split
  · rename_i a b c d
    simp only [noReservedAtoms, Bool.and_eq_true] at hres
    obtain ⟨⟨ha, hb⟩, hcn, hd⟩ := hres
    split_ifs with h1 h2 h3 h4
    · rw [← noReserved_nodesEqual ha hcn h1]
      simp only [evalE]
      cases evalE env a <;> simp
    · rw [← noReserved_nodesEqual ha hd h2]
      simp only [evalE]
      cases evalE env a <;> cases evalE env c <;> simp
    · rw [← noReserved_nodesEqual hb hcn h3]
      simp only [evalE]
      cases evalE env b <;> cases evalE env a <;> simp
    · rw [← noReserved_nodesEqual hb hd h4]
      simp only [evalE]
      cases evalE env b <;> cases evalE env a <;> cases evalE env c <;> simp
    · rfl
  · rename_i a b c d
    simp only [noReservedAtoms, Bool.and_eq_true] at hres
    obtain ⟨⟨ha, hb⟩, hcn, hd⟩ := hres
    split_ifs with h1 h2 h3 h4
    · rw [← noReserved_nodesEqual ha hcn h1]
      simp only [evalE]
      cases evalE env a <;> simp
    · rw [← noReserved_nodesEqual ha hd h2]
      simp only [evalE]
      cases evalE env a <;> cases evalE env c <;> simp
    · rw [← noReserved_nodesEqual hb hcn h3]
      simp only [evalE]
      cases evalE env b <;> cases evalE env a <;> simp
    · rw [← noReserved_nodesEqual hb hd h4]
      simp only [evalE]
      cases evalE env b <;> cases evalE env a <;> cases evalE env c <;> simp
    · rfl
  · rfl

theorem sound_implication_elimination (env : String → Bool) (e : Expr) :
    evalE env (apply_implication_elimination e) = evalE env e := by
  unfold apply_implication_elimination
  split
  · simp [evalE]
  · rfl

theorem sound_implication_introduction (env : String → Bool) (e : Expr) :
    evalE env (apply_implication_introduction e) = evalE env e := by
  unfold apply_implication_introduction
  split
  · simp [evalE]
  · rfl

theorem sound_contraposition (env : String → Bool) (e : Expr) :
    evalE env (apply_contraposition e) = evalE env e := by
  unfold apply_contraposition
  split
  · rename_i a b
    simp only [evalE]
    cases evalE env a <;> cases evalE env b <;> simp
  · rfl

theorem sound_identity (env : String → Bool) (e : Expr) :
    evalE env (apply_identity e) = evalE env e := by
  unfold apply_identity
  split
  · rename_i l r
    split_ifs with h1 h2
    · rw [eq_of_isFalseConst h1]
      simp [evalE]
    · rw [eq_of_isFalseConst h2]
      simp [evalE]
    · rfl
  · rename_i l r
    split_ifs with h1 h2
    · rw [eq_of_isTrueConst h1]
      simp [evalE]
    · rw [eq_of_isTrueConst h2]
      simp [evalE]
    · rfl
  · rfl

theorem sound_domination (env : String → Bool) (e : Expr) :
    evalE env (apply_domination e) = evalE env e := by
  unfold apply_domination
  split
  · rename_i l r
    split_ifs with h1
    · simp only [Bool.or_eq_true] at h1
      rcases h1 with hx | hx
      · rw [eq_of_isTrueConst hx]
        simp [evalE]
      · rw [eq_of_isTrueConst hx]
        simp [evalE]
    · rfl
  · rename_i l r
    split_ifs with h1
    · simp only [Bool.or_eq_true] at h1
      rcases h1 with hx | hx
      · rw [eq_of_isFalseConst hx]
        simp [evalE]
      · rw [eq_of_isFalseConst hx]
        simp [evalE]
    · rfl
  · rfl

theorem sound_negation_constant (env : String → Bool) (e : Expr) :
    evalE env (apply_negation_constant e) = evalE env e := by
  unfold apply_negation_constant
  split
  · rename_i a
    split_ifs with h1 h2
    · rw [eq_of_isTrueConst h1]
      simp [evalE]
    · rw [eq_of_isFalseConst h2]
      simp [evalE]
    · rfl
  · rfl

theorem complement_disj_true (env : String → Bool) (l r : Expr)
    (hl : noReservedAtoms l = true) (hr : noReservedAtoms r = true)
    (h1 : complementMatch l r = true) :
    (evalE env l || evalE env r) = true := by
  simp only [complementMatch, Bool.or_eq_true] at h1
  rcases h1 with h1 | h1
  · cases r with
    | neg x =>
        simp only [complementRight] at h1
        have he : l = x := noReserved_nodesEqual hl hr h1
        subst he
        simp only [evalE]
        cases evalE env l <;> simp
    | atom n => simp [complementRight] at h1
    | const b => simp [complementRight] at h1
    | conj a b => simp [complementRight] at h1
    | disj a b => simp [complementRight] at h1
    | impl a b => simp [complementRight] at h1
  · cases l with
    | neg x =>
        simp only [complementLeft] at h1
        have he : x = r := noReserved_nodesEqual hl hr h1
        rw [← he]
        simp only [evalE]
        cases evalE env x <;> simp
    | atom n => simp [complementLeft] at h1
    | const b => simp [complementLeft] at h1
    | conj a b => simp [complementLeft] at h1
    | disj a b => simp [complementLeft] at h1
    | impl a b => simp [complementLeft] at h1

theorem complement_conj_false (env : String → Bool) (l r : Expr)
    (hl : noReservedAtoms l = true) (hr : noReservedAtoms r = true)
    (h1 : complementMatch l r = true) :
    (evalE env l && evalE env r) = false := by
  simp only [complementMatch, Bool.or_eq_true] at h1
  rcases h1 with h1 | h1
  · cases r with
    | neg x =>
        simp only [complementRight] at h1
        have he : l = x := noReserved_nodesEqual hl hr h1
        subst he
        simp only [evalE]
        cases evalE env l <;> simp
    | atom n => simp [complementRight] at h1
    | const b => simp [complementRight] at h1
    | conj a b => simp [complementRight] at h1
    | disj a b => simp [complementRight] at h1
    | impl a b => simp [complementRight] at h1
  · cases l with
    | neg x =>
        simp only [complementLeft] at h1
        have he : x = r := noReserved_nodesEqual hl hr h1
        rw [← he]
        simp only [evalE]
        cases evalE env x <;> simp
    | atom n => simp [complementLeft] at h1
    | const b => simp [complementLeft] at h1
    | conj a b => simp [complementLeft] at h1
    | disj a b => simp [complementLeft] at h1
    | impl a b => simp [complementLeft] at h1

theorem sound_complement (env : String → Bool) (e : Expr)
    (hres : noReservedAtoms e = true) :
    evalE env (apply_complement e) = evalE env e := by
  cases e with
  | disj l r =>
      simp only [noReservedAtoms, Bool.and_eq_true] at hres
      simp only [apply_complement]
      split_ifs with h1
      · simp only [evalE]
        exact (complement_disj_true env l r hres.1 hres.2 h1).symm
      · rfl
  | conj l r =>
      simp only [noReservedAtoms, Bool.and_eq_true] at hres
      simp only [apply_complement]
      split_ifs with h1
      · simp only [evalE]
        exact (complement_conj_false env l r hres.1 hres.2 h1).symm
      · rfl
  | atom n => rfl
  | const b => rfl
  | neg a => rfl
  | impl a b => rfl

theorem sound_implication_constant (env : String → Bool) (e : Expr) :
    evalE env (apply_implication_constant e) = evalE env e := by
  unfold apply_implication_constant
  split
  · rename_i l r
    split_ifs with h1 h2 h3 h4
    · rw [eq_of_isTrueConst h1]
      simp [evalE]
    · rw [eq_of_isFalseConst h2]
      simp [evalE]
    · rw [eq_of_isTrueConst h3]
      simp [evalE]
    · rw [eq_of_isFalseConst h4]
      simp [evalE]
    · rfl
  · rfl

/-- C1 (amended): for every one of the seventeen equivalence laws and every
expression none of whose atomic variables is named "T" or "F" (true of every
parser-produced expression), whenever the law's check predicate holds the
rewritten expression evaluates to the same boolean value as the original
under every assignment of its variables. -/
theorem c1_semantic_preservation_amended (r : Rule) (e : Expr)
    (hres : noReservedAtoms e = true) (hc : ruleCheck r e = true)
    (env : String → Bool) : evalE env (ruleApply r e) = evalE env e := by
  cases r
  case double_negation => exact sound_double_negation env e
  case de_morgan => exact sound_de_morgan env e
  case de_morgan_reverse => exact sound_de_morgan_reverse env e
  case commutativity => exact sound_commutativity env e
  case associativity => exact sound_associativity env e
  case idempotence => exact sound_idempotence env e hres
  case absorption => exact sound_absorption env e hres
  case distributivity => exact sound_distributivity env e
  case factoring => exact sound_factoring env e hres
  case implication_elimination => exact sound_implication_elimination env e
  case implication_introduction => exact sound_implication_introduction env e
  case contraposition => exact sound_contraposition env e
  case identity => exact sound_identity env e
  case domination => exact sound_domination env e
  case negation_constant => exact sound_negation_constant env e
  case complement => exact sound_complement env e hres
  case implication_constant => exact sound_implication_constant env e

/-- C1 is false as stated: the library's `_nodes_equal` compares leaves by
their `text`, so an atomic variable literally named "T" is conflated with the
TRUE constant; `check_complement` then accepts `T v ~T` (atom vs constant)
and `apply_complement` rewrites it to TRUE, although the original evaluates
to false when the atom "T" is assigned false. -/
theorem c1_counterexample :
    ruleCheck Rule.complement (Expr.disj (Expr.atom "T") (Expr.neg (Expr.const true))) = true ∧
    evalE (fun _ => false)
        (ruleApply Rule.complement
          (Expr.disj (Expr.atom "T") (Expr.neg (Expr.const true)))) ≠
      evalE (fun _ => false)
        (Expr.disj (Expr.atom "T") (Expr.neg (Expr.const true))) := by
  constructor
  · decide
  · decide

/-- Witness for C1: De Morgan on `~(p ^ q)` preserves the value under the
all-true assignment. -/
theorem c1_witness :
    noReservedAtoms (Expr.neg (Expr.conj (Expr.atom "p") (Expr.atom "q"))) = true ∧
    ruleCheck Rule.de_morgan (Expr.neg (Expr.conj (Expr.atom "p") (Expr.atom "q"))) = true ∧
    evalE (fun _ => true)
        (ruleApply Rule.de_morgan (Expr.neg (Expr.conj (Expr.atom "p") (Expr.atom "q")))) =
      evalE (fun _ => true) (Expr.neg (Expr.conj (Expr.atom "p") (Expr.atom "q"))) :=
  ⟨by decide, by decide,
    c1_semantic_preservation_amended Rule.de_morgan _ (by decide) (by decide) (fun _ => true)⟩

theorem charListLe_total : ∀ a b, charListLe a b = true ∨ charListLe b a = true := by
  intro a
  induction a with
  | nil => intro b; left; rfl
  | cons x xs ih =>
      intro b
      cases b with
      | nil => right; rfl
      | cons y ys =>
          by_cases hxy : x = y
          · subst hxy
            simp only [charListLe, if_pos rfl]
            exact ih ys
          · simp only [charListLe, if_neg hxy, if_neg (Ne.symm hxy)]
            rcases lt_or_gt_of_ne hxy with h | h
            · left
              exact decide_eq_true h
            · right
              exact decide_eq_true h

theorem charListLe_trans : ∀ a b c, charListLe a b = true → charListLe b c = true →
    charListLe a c = true := by
  intro a
  induction a with
  | nil => intro b c _ _; rfl
  | cons x xs ih =>
      intro b c hab hbc
      cases b with
      | nil => simp [charListLe] at hab
      | cons y ys =>
          cases c with
          | nil => simp [charListLe] at hbc
          | cons z zs =>
              simp only [charListLe] at hab hbc ⊢
              by_cases hxy : x = y
              · subst hxy
                rw [if_pos rfl] at hab
                by_cases hxz : x = z
                · subst hxz
                  rw [if_pos rfl] at hbc ⊢
                  exact ih ys zs hab hbc
                · rw [if_neg hxz] at hbc ⊢
                  exact hbc
              · rw [if_neg hxy] at hab
                by_cases hyz : y = z
                · subst hyz
                  by_cases hxz : x = y
                  · exact absurd hxz hxy
                  · rw [if_neg hxz]
                    exact hab
                · rw [if_neg hyz] at hbc
                  by_cases hxz : x = z
                  · exfalso
                    rw [← hxz] at hbc
                    exact absurd (lt_trans (of_decide_eq_true hab) (of_decide_eq_true hbc))
                      (lt_irrefl x)
                  · rw [if_neg hxz]
                    exact decide_eq_true
                      (lt_trans (of_decide_eq_true hab) (of_decide_eq_true hbc))

theorem nameLe_total (a b : String) : nameLe a b = true ∨ nameLe b a = true :=
  charListLe_total a.data b.data

theorem nameLe_trans {a b c : String} (h1 : nameLe a b = true)
    (h2 : nameLe b c = true) : nameLe a c = true :=
  charListLe_trans a.data b.data c.data h1 h2

theorem mem_insertSorted {y x : String} : ∀ {l : List String},
    y ∈ insertSorted x l ↔ y = x ∨ y ∈ l := by
  intro l
  induction l with
  | nil => simp [insertSorted]
  | cons z zs ih =>
      simp only [insertSorted]
      split_ifs with h
      · simp
      · simp only [List.mem_cons, ih]
        tauto

theorem nodup_insertSorted {x : String} : ∀ {l : List String},
    x ∉ l → l.Nodup → (insertSorted x l).Nodup := by
  intro l
  induction l with
  | nil => simp [insertSorted]
  | cons z zs ih =>
      intro hx hnd
      simp only [insertSorted]
      split_ifs with h
      · exact List.Nodup.cons (by simpa using hx) hnd
      · simp only [List.nodup_cons] at hnd ⊢
        refine ⟨?_, ih (by simp_all) hnd.2⟩
        rw [mem_insertSorted]
        rintro (rfl | hz)
        · exact hx (by simp)
        · exact hnd.1 hz

theorem sorted_insertSorted {x : String} : ∀ {l : List String},
    List.Sorted (fun a b => nameLe a b = true) l →
    List.Sorted (fun a b => nameLe a b = true) (insertSorted x l) := by
  intro l
  induction l with
  | nil => simp [insertSorted]
  | cons z zs ih =>
      intro hs
      simp only [insertSorted]
      rw [List.sorted_cons] at hs
      split_ifs with h
      · rw [List.sorted_cons]
        refine ⟨?_, List.sorted_cons.mpr hs⟩
        intro b hb
        rcases List.mem_cons.mp hb with rfl | hb
        · exact h
        · exact nameLe_trans h (hs.1 b hb)
      · rw [List.sorted_cons]
        refine ⟨?_, ih hs.2⟩
        intro b hb
        rcases mem_insertSorted.mp hb with hbx | hb
        · rw [hbx]
          rcases nameLe_total x z with hx | hx
          · exact absurd hx h
          · exact hx
        · exact hs.1 b hb

theorem mem_sortNames {y : String} : ∀ {l : List String},
    y ∈ sortNames l ↔ y ∈ l := by
  intro l
  induction l with
  | nil => simp [sortNames]
  | cons z zs ih =>
      show y ∈ insertSorted z (sortNames zs) ↔ _
      rw [mem_insertSorted, ih]
      simp

theorem nodup_sortNames : ∀ {l : List String}, l.Nodup → (sortNames l).Nodup := by
  intro l
  induction l with
  | nil => simp [sortNames]
  | cons z zs ih =>
      intro h
      simp only [List.nodup_cons] at h
      exact nodup_insertSorted (fun hc => h.1 (mem_sortNames.mp hc)) (ih h.2)

theorem sorted_sortNames : ∀ l : List String,
    List.Sorted (fun a b => nameLe a b = true) (sortNames l) := by
  intro l
  induction l with
  | nil => simp [sortNames]
  | cons z zs ih => exact sorted_insertSorted ih

theorem verifyScan_count_le (m : Nat → Bool) (l : List Nat) :
    (verifyScan m l).2 ≤ l.length := by
  induction l with
  | nil => simp [verifyScan]
  | cons i rest ih =>
      simp only [verifyScan]
      split_ifs
      · simp
      · simpa using Nat.add_le_add_right ih 1

theorem verifyScan_true_iff (m : Nat → Bool) (l : List Nat) :
    (verifyScan m l).1 = true ↔ ∀ i ∈ l, m i = false := by
  induction l with
  | nil => simp [verifyScan]
  | cons i rest ih =>
      simp only [verifyScan]
      split_ifs with hm
      · simp [hm]
      · simp only [List.mem_cons]
        constructor
        · intro h j hj
          rcases hj with rfl | hj
          · simpa using hm
          · exact ih.1 h j hj
        · intro h
          exact ih.2 fun j hj => h j (Or.inr hj)

theorem verifyScan_true_count (m : Nat → Bool) (l : List Nat)
    (h : (verifyScan m l).1 = true) : (verifyScan m l).2 = l.length := by
  induction l with
  | nil => simp [verifyScan]
  | cons i rest ih =>
      simp only [verifyScan] at h ⊢
      split_ifs with hm
      · rw [if_pos hm] at h
        simp at h
      · rw [if_neg hm] at h
        simpa using ih h

theorem verifyScan_first_mismatch (m : Nat → Bool) (i : Nat) :
    ∀ l1 l2 : List Nat, (∀ k ∈ l1, m k = false) → m i = true →
    verifyScan m (l1 ++ i :: l2) = (false, l1.length + 1) := by
  intro l1
  induction l1 with
  | nil =>
      intro l2 _ hm
      simp [verifyScan, hm]
  | cons k rest ih =>
      intro l2 hall hm
      have hk : m k = false := hall k (by simp)
      have hih := ih l2 (fun j hj => hall j (by simp [hj])) hm
      simp [List.cons_append, verifyScan, hk, hih]

theorem range_split {i N : Nat} (h : i < N) :
    List.range N = List.range i ++ i :: List.range' (i + 1) (N - i - 1) := by
  have h1 : List.range N = List.range' 0 N := List.range_eq_range' N
  have h2 : List.range' 0 i ++ List.range' i (N - i) = List.range' 0 N := by
    have hap := List.range'_append 0 i (N - i) 1
    simp only [Nat.zero_add, Nat.one_mul] at hap
    rw [show N - i + i = N by omega] at hap
    exact hap
  obtain ⟨k, hk⟩ : ∃ k, N - i = k + 1 := ⟨N - i - 1, by omega⟩
  have h3 : List.range' i (N - i) = i :: List.range' (i + 1) (N - i - 1) := by
    rw [hk, List.range'_succ]
    simp
  rw [h1, ← h2, h3, List.range_eq_range']

/-- C4: the semantic verifier ranges over the sorted deduplicated union of
the two symbol tables' names with the constant spellings 'T'/'F' excluded;
when that union is empty it evaluates each expression once and compares;
otherwise it scans the `2^n` bit patterns — binding every shared name to the
same bit in both environments — evaluating at most `2^n` assignments
(exactly `2^n` when it answers true), answering false immediately after the
first mismatching assignment and true only when every assignment agrees. -/
theorem c4_semantic_verifier_spec (e1 : Expr) (vars1 : List String) (e2 : Expr)
    (vars2 : List String) (base1 base2 : String → Bool)
    (names : List String) (hn : names = unionNames vars1 vars2)
    (mism : Nat → Bool)
    (hm : mism = assignMismatch e1 vars1 e2 vars2 base1 base2 names) :
    List.Sorted (fun a b => nameLe a b = true) names ∧
    names.Nodup ∧
    (∀ nm, nm ∈ names ↔ ((nm ∈ vars1 ∨ nm ∈ vars2) ∧ nm ≠ "T" ∧ nm ≠ "F")) ∧
    (names = [] →
      verifySemanticEquivalence e1 vars1 e2 vars2 base1 base2 =
        (evalE base1 e1 == evalE base2 e2)) ∧
    (∀ nm ∈ names, nm ∈ vars1 → nm ∈ vars2 → ∀ i,
      assignEnv names vars1 i base1 nm = assignEnv names vars2 i base2 nm) ∧
    (names ≠ [] →
      verifySemanticEquivalence e1 vars1 e2 vars2 base1 base2 =
        (verifyScan mism (List.range (2 ^ names.length))).1) ∧
    (verifyScan mism (List.range (2 ^ names.length))).2 ≤ 2 ^ names.length ∧
    ((verifyScan mism (List.range (2 ^ names.length))).1 = true ↔
      ∀ i < 2 ^ names.length, mism i = false) ∧
    ((verifyScan mism (List.range (2 ^ names.length))).1 = true →
      (verifyScan mism (List.range (2 ^ names.length))).2 = 2 ^ names.length) ∧
    (∀ i < 2 ^ names.length, (∀ k < i, mism k = false) → mism i = true →
      verifyScan mism (List.range (2 ^ names.length)) = (false, i + 1)) := by
  subst hn
  subst hm
  refine ⟨?_, ?_, ?_, ?_, ?_, ?_, ?_, ?_, ?_, ?_⟩
  · exact sorted_sortNames _
  · exact nodup_sortNames ((List.nodup_dedup _).filter _)
  · intro nm
    unfold unionNames
    rw [mem_sortNames]
    simp [List.mem_filter, List.mem_dedup, List.mem_append, and_assoc]
  · intro h0
    unfold verifySemanticEquivalence
    simp only [h0]
    simp
  · intro nm hmem h1 h2 i
    unfold assignEnv
    cases hidx : (unionNames vars1 vars2).indexOf? nm with
    | none =>
        have := List.indexOf?_eq_none_iff.mp hidx nm hmem
        simp at this
    | some j => simp [h1, h2]
  · intro hne
    unfold verifySemanticEquivalence
    rw [if_neg (by simpa [List.length_eq_zero] using hne)]
  · have := verifyScan_count_le
      (assignMismatch e1 vars1 e2 vars2 base1 base2 (unionNames vars1 vars2))
      (List.range (2 ^ (unionNames vars1 vars2).length))
    simpa using this
  · rw [verifyScan_true_iff]
    constructor
    · intro h i hi
      exact h i (List.mem_range.mpr hi)
    · intro h i hi
      exact h i (List.mem_range.mp hi)
  · intro h
    rw [verifyScan_true_count _ _ h, List.length_range]
  · intro i hi hprev hmi
    rw [range_split hi,
      verifyScan_first_mismatch _ i (List.range i) _
        (fun k hk => hprev k (List.mem_range.mp hk)) hmi,
      List.length_range]

/-- Witness for C4, at the parsed tables of `p ^ q` and `q v p` with the
union `["p", "q"]` and the all-false initial cells. -/
theorem c4_witness :
    (["p", "q"] : List String) = unionNames ["p", "q"] ["q", "p"] ∧
    (["p", "q"] ≠ [] →
      verifySemanticEquivalence (Expr.conj (Expr.atom "p") (Expr.atom "q")) ["p", "q"]
          (Expr.disj (Expr.atom "q") (Expr.atom "p")) ["q", "p"]
          (fun _ => false) (fun _ => false) =
        (verifyScan
          (assignMismatch (Expr.conj (Expr.atom "p") (Expr.atom "q")) ["p", "q"]
            (Expr.disj (Expr.atom "q") (Expr.atom "p")) ["q", "p"]
            (fun _ => false) (fun _ => false) ["p", "q"])
          (List.range (2 ^ (["p", "q"] : List String).length))).1) := by
  refine ⟨by decide, ?_⟩
  exact (c4_semantic_verifier_spec (Expr.conj (Expr.atom "p") (Expr.atom "q")) ["p", "q"]
    (Expr.disj (Expr.atom "q") (Expr.atom "p")) ["q", "p"]
    (fun _ => false) (fun _ => false) ["p", "q"] (by decide) _ rfl).2.2.2.2.2.1

/-- C3: whenever the initial semantic truth-table check finds a mismatching
assignment, `ProveService.prove` returns `success=true`, `equivalent=false`,
`iterations=0` and an empty transformation list, and the answer is the same
for every strategy oracle — no proof search influences the result. -/
theorem c3_semantic_failure_short_circuit (e1 : Expr) (vars1 : List String)
    (e2 : Expr) (vars2 : List String) (base1 base2 : String → Bool)
    (method : String) (strat : String → StratOutcome)
    (h : verifySemanticEquivalence e1 vars1 e2 vars2 base1 base2 = false) :
    proveService e1 vars1 e2 vars2 base1 base2 method strat =
      .ok ⟨true, false, "semantic_verification", 0, 0, e1, e2, []⟩ := by
  unfold proveService
  rw [if_pos h]

/-- Witness for C3: on the parsed `"p -> q"` and `"q -> p"` the semantic
check fails, and the service short-circuits for an arbitrary oracle. -/
theorem c3_witness :
    parseProp "p -> q" = some (Expr.impl (Expr.atom "p") (Expr.atom "q"), ["p", "q"]) ∧
    parseProp "q -> p" = some (Expr.impl (Expr.atom "q") (Expr.atom "p"), ["q", "p"]) ∧
    verifySemanticEquivalence (Expr.impl (Expr.atom "p") (Expr.atom "q")) ["p", "q"]
      (Expr.impl (Expr.atom "q") (Expr.atom "p")) ["q", "p"]
      (fun _ => false) (fun _ => false) = false ∧
    proveService (Expr.impl (Expr.atom "p") (Expr.atom "q")) ["p", "q"]
        (Expr.impl (Expr.atom "q") (Expr.atom "p")) ["q", "p"]
        (fun _ => false) (fun _ => false) "direct"
        (fun _ => ⟨true, 7, 7, [], Expr.const true, Expr.const true, "direct"⟩) =
      .ok ⟨true, false, "semantic_verification", 0, 0,
        Expr.impl (Expr.atom "p") (Expr.atom "q"),
        Expr.impl (Expr.atom "q") (Expr.atom "p"), []⟩ :=
  ⟨by decide, by decide, by decide,
    c3_semantic_failure_short_circuit _ _ _ _ _ _ "direct" _ (by decide)⟩

/-- C2 (refuting theorem for the `bidirectional` selector): on the parseable,
semantically-equivalent inputs `"~~p"` / `"p"`, the `bidirectional` branch
looks up `prove_bidirectional` on the `Equivalence` class, which defines only
`prove_equivalence_bidirectional`; the attribute lookup fails and the
operation raises instead of returning a structured result — for every
strategy oracle. -/
theorem c2_bidirectional_attribute_error (strat : String → StratOutcome)
    (base1 base2 : String → Bool) :
    proveService (Expr.neg (Expr.neg (Expr.atom "p"))) ["p"] (Expr.atom "p") ["p"]
        base1 base2 "bidirectional" strat =
      .error "AttributeError: 'Equivalence' object has no attribute 'prove_bidirectional'" := by
  have hv : verifySemanticEquivalence (Expr.neg (Expr.neg (Expr.atom "p"))) ["p"]
      (Expr.atom "p") ["p"] base1 base2 = true := rfl
  have ha : areEqualE (Expr.neg (Expr.neg (Expr.atom "p"))) (Expr.atom "p") = false := rfl
  unfold proveService
  rw [hv, ha]
  simp [equivalenceMethodNames]

/-- C6: the fallback orchestrator attempts Direct, then Contrapositive, then
Absurdity, stopping at the first success (the later thunks do not influence
the result), reports the successful method, and totals the iteration counts
of exactly the strategies attempted. -/
theorem c6_fallback_orchestrator (direct contra absurd : Unit → StratResult) :
    ((direct ()).success = true →
      proveWithFallback direct contra absurd =
        ⟨true, "direct", (direct ()).iterations⟩ ∧
      ∀ contra' absurd',
        proveWithFallback direct contra' absurd' = proveWithFallback direct contra absurd) ∧
    ((direct ()).success = false → (contra ()).success = true →
      proveWithFallback direct contra absurd =
        ⟨true, "contrapositive", (direct ()).iterations + (contra ()).iterations⟩ ∧
      ∀ absurd',
        proveWithFallback direct contra absurd' = proveWithFallback direct contra absurd) ∧
    ((direct ()).success = false → (contra ()).success = false →
      (absurd ()).success = true →
      proveWithFallback direct contra absurd =
        ⟨true, "absurdity",
          (direct ()).iterations + (contra ()).iterations + (absurd ()).iterations⟩) ∧
    ((direct ()).success = false → (contra ()).success = false →
      (absurd ()).success = false →
      proveWithFallback direct contra absurd =
        ⟨false, "all_failed",
          (direct ()).iterations + (contra ()).iterations + (absurd ()).iterations⟩) := by
  refine ⟨?_, ?_, ?_, ?_⟩
  · intro hd
    constructor
    · simp [proveWithFallback, hd]
    · intro contra' absurd'
      simp [proveWithFallback, hd]
  · intro hd hc
    constructor
    · simp [proveWithFallback, hd, hc]
    · intro absurd'
      simp [proveWithFallback, hd, hc]
  · intro hd hc ha
    simp [proveWithFallback, hd, hc, ha]
  · intro hd hc ha
    simp [proveWithFallback, hd, hc, ha]

/-- Witness for C6: direct fails after 5 iterations, contrapositive succeeds
after 3, absurdity is never consulted. -/
theorem c6_witness :
    (((fun _ => (⟨false, 5⟩ : StratResult)) ()).success = false ∧
      ((fun _ => (⟨true, 3⟩ : StratResult)) ()).success = true) ∧
    proveWithFallback (fun _ => ⟨false, 5⟩) (fun _ => ⟨true, 3⟩) (fun _ => ⟨true, 100⟩) =
      ⟨true, "contrapositive", 8⟩ :=
  ⟨⟨rfl, rfl⟩,
    ((c6_fallback_orchestrator (fun _ => ⟨false, 5⟩) (fun _ => ⟨true, 3⟩)
      (fun _ => ⟨true, 100⟩)).2.1 rfl rfl).1⟩

/-- Spec-side: a tier's (rule, expression-index) pairs in the order the
fallback tries them — rule-major, expression 1 before expression 2. -/
def specTierPairs : List Rule → List (Rule × Nat)
  | [] => []
  | rl :: rest => (rl, 1) :: (rl, 2) :: specTierPairs rest

/-- Spec-side: whether a (rule, expression-index) pair is applicable
anywhere on its target. -/
def specApplicablePair (c1 c2 : Expr) (p : Rule × Nat) : Bool :=
  canApplyAnywhere (ruleCheck p.1) (if p.2 = 1 then c1 else c2)

/-- Spec-side: the first applicable simplification pair ("in this order,
first match wins"). -/
def specFirstSimplification (c1 c2 : Expr) : Option (Rule × Nat) :=
  (specTierPairs simplificationTransformations).find? (specApplicablePair c1 c2)

/-- Spec-side: all currently applicable structure-preserving instances. -/
def specStructureCandidates (c1 c2 : Expr) : List (Rule × Nat) :=
  (specTierPairs structureTransformations).filter (specApplicablePair c1 c2)

/-- Spec-side: all currently applicable complexity-increasing instances. -/
def specExpansionCandidates (c1 c2 : Expr) : List (Rule × Nat) :=
  (specTierPairs expansionTransformations).filter (specApplicablePair c1 c2)

/-- The nine simplification rules claimed for the fallback's first tier. -/
def claimedNineSimplification : List Rule :=
  [.double_negation, .idempotence, .absorption, .factoring, .identity,
   .domination, .negation_constant, .complement, .implication_constant]

theorem prio1Choice_eq_find (c1 c2 : Expr) : ∀ rules : List Rule,
    prio1Choice c1 c2 rules =
      (specTierPairs rules).find? (specApplicablePair c1 c2) := by
  intro rules
  induction rules with
  | nil => rfl
  | cons rl rest ih =>
      have hp1 : specApplicablePair c1 c2 (rl, 1) = canApplyAnywhere (ruleCheck rl) c1 := rfl
      have hp2 : specApplicablePair c1 c2 (rl, 2) = canApplyAnywhere (ruleCheck rl) c2 := rfl
      simp only [prio1Choice, specTierPairs, List.find?_cons, hp1, hp2]
      by_cases h1 : canApplyAnywhere (ruleCheck rl) c1
      · simp [h1]
      · by_cases h2 : canApplyAnywhere (ruleCheck rl) c2
        · simp [h1, h2]
        · simp [h1, h2, ih]

theorem tierCandidates_eq_filter (c1 c2 : Expr) : ∀ rules : List Rule,
    tierCandidates c1 c2 rules =
      (specTierPairs rules).filter (specApplicablePair c1 c2) := by
  intro rules
  induction rules with
  | nil => rfl
  | cons rl rest ih =>
      have hp1 : specApplicablePair c1 c2 (rl, 1) = canApplyAnywhere (ruleCheck rl) c1 := rfl
      have hp2 : specApplicablePair c1 c2 (rl, 2) = canApplyAnywhere (ruleCheck rl) c2 := rfl
      simp only [tierCandidates, specTierPairs, List.filter_cons, hp1, hp2]
      by_cases h1 : canApplyAnywhere (ruleCheck rl) c1 <;>
        by_cases h2 : canApplyAnywhere (ruleCheck rl) c2 <;>
          simp [h1, h2, ih]

/-- C7 (amended): the fallback's simplification tier comprises TEN rules —
the nine claimed ones plus `implication_elimination`, tried last — in order
across both expressions with the first applicable match winning
deterministically; only when none of the ten applies does it pick the
`structPick`-indexed element among the applicable structure-preserving
instances (de_morgan, commutativity, associativity, contraposition), and
only when that tier is empty, behind the 10% gate, an applicable
complexity-increasing instance (de_morgan_reverse, distributivity,
implication_introduction). -/
theorem c7_fallback_priority_amended (c1 c2 : Expr) (rnd : Rnd) :
    simplificationTransformations =
      claimedNineSimplification ++ [Rule.implication_elimination] ∧
    fallbackChoose c1 c2 rnd =
      (match specFirstSimplification c1 c2 with
       | some rw => some rw
       | none =>
          match (specStructureCandidates c1 c2).get?
              (rnd.structPick % (specStructureCandidates c1 c2).length) with
          | some rw => some rw
          | none =>
              if rnd.expandGate then
                (specExpansionCandidates c1 c2).get?
                  (rnd.expandPick % (specExpansionCandidates c1 c2).length)
              else none) := by
  refine ⟨rfl, ?_⟩
  unfold fallbackChoose specFirstSimplification specStructureCandidates
    specExpansionCandidates
  rw [prio1Choice_eq_find, tierCandidates_eq_filter, tierCandidates_eq_filter]
  cases (specTierPairs simplificationTransformations).find? (specApplicablePair c1 c2) with
  | some rw => rfl
  | none =>
      dsimp only
      cases ((specTierPairs structureTransformations).filter (specApplicablePair c1 c2)).get?
          (rnd.structPick %
            ((specTierPairs structureTransformations).filter (specApplicablePair c1 c2)).length) with
      | some rw => rfl
      | none =>
          dsimp only
          by_cases hg : rnd.expandGate
          · rw [if_pos hg, if_pos hg]
            cases ((specTierPairs expansionTransformations).filter (specApplicablePair c1 c2)).get?
                (rnd.expandPick %
                  ((specTierPairs expansionTransformations).filter
                    (specApplicablePair c1 c2)).length) with
            | some rw => rfl
            | none => rfl
          · rw [if_neg hg, if_neg hg]

/-- C7 is false as stated: on expression 1 `p -> q` and expression 2 `r`
none of the claimed nine simplification rules applies anywhere, a
structure-preserving rule (contraposition) does apply, yet the fallback
deterministically selects `implication_elimination` — a rule belonging to
none of the claim's three tiers — instead of drawing among the
structure-preserving candidates. -/
theorem c7_counterexample :
    (claimedNineSimplification.all fun rl =>
        !canApplyAnywhere (ruleCheck rl) (Expr.impl (Expr.atom "p") (Expr.atom "q")) &&
        !canApplyAnywhere (ruleCheck rl) (Expr.atom "r")) = true ∧
    canApplyAnywhere (ruleCheck Rule.contraposition)
      (Expr.impl (Expr.atom "p") (Expr.atom "q")) = true ∧
    fallbackChoose (Expr.impl (Expr.atom "p") (Expr.atom "q")) (Expr.atom "r")
      ⟨0, 0, false, 0⟩ = some (Rule.implication_elimination, 1) ∧
    Rule.implication_elimination ∉ claimedNineSimplification ∧
    Rule.implication_elimination ∉ structureTransformations ∧
    Rule.implication_elimination ∉ expansionTransformations := by
  refine ⟨by decide, by decide, by decide, by decide, by decide, by decide⟩

theorem lookupRule_name {t : String} {r : Rule} (h : lookupRule t = some r) :
    t = ruleName r := by
  have hp := List.find?_some h
  simp only [beq_iff_eq] at hp
  exact hp.symm

theorem applyRandomWithLoc_dn (k : Nat) :
    applyRandomWithLoc (ruleCheck Rule.double_negation) (ruleApply Rule.double_negation)
      (Expr.neg (Expr.neg (Expr.atom "p"))) k = (Expr.atom "p", none) := by
  unfold applyRandomWithLoc
  have hl : applicableLocations (ruleCheck Rule.double_negation)
      (Expr.neg (Expr.neg (Expr.atom "p"))) = [none] := rfl
  rw [hl]
  simp [Nat.mod_one]
  try rfl

theorem nn_step_dn (pred : Expr → Expr → Nat × String) (i : Nat) (rnd : Rnd) :
    ∃ b : Bool,
      nnIter pred i rnd ⟨Expr.neg (Expr.neg (Expr.atom "p")), Expr.atom "p", [], 0⟩ =
        ⟨Expr.atom "p", Expr.atom "p",
         [⟨i, 1, "double_negation", Expr.atom "p", b, none⟩],
         if b then 1 else 0⟩ := by
  have hfb : fallbackChoose (Expr.neg (Expr.neg (Expr.atom "p"))) (Expr.atom "p") rnd =
      some (Rule.double_negation, 1) := rfl
  have hif : (if (1 : Nat) = 1 then Expr.neg (Expr.neg (Expr.atom "p")) else Expr.atom "p") =
      Expr.neg (Expr.neg (Expr.atom "p")) := rfl
  unfold nnIter
  dsimp only
  rcases hpred : pred (Expr.neg (Expr.neg (Expr.atom "p"))) (Expr.atom "p") with ⟨w, t⟩
  dsimp only
  by_cases hw : w = 1
  · subst hw
    rw [hif]
    cases hlook : lookupRule t with
    | none =>
        dsimp only
        rw [hfb]
        dsimp only
        rw [hif, applyRandomWithLoc_dn]
        exact ⟨false, rfl⟩
    | some rl =>
        dsimp only
        cases rl
        · rw [if_pos (by decide : canApplyAnywhere
              (ruleCheck Rule.double_negation) (Expr.neg (Expr.neg (Expr.atom "p"))) = true)]
          have ht := lookupRule_name hlook
          subst ht
          dsimp only
          rw [applyRandomWithLoc_dn]
          exact ⟨true, rfl⟩
        all_goals
          (rw [if_neg (by decide)]
           rw [hfb]
           dsimp only
           rw [hif, applyRandomWithLoc_dn]
           exact ⟨false, rfl⟩)
  · rw [if_neg hw]
    cases hlook : lookupRule t with
    | none =>
        dsimp only
        rw [hfb]
        dsimp only
        rw [hif, applyRandomWithLoc_dn]
        exact ⟨false, rfl⟩
    | some rl =>
        dsimp only
        cases rl <;>
          (rw [if_neg (by decide)]
           rw [hfb]
           dsimp only
           rw [hif, applyRandomWithLoc_dn]
           exact ⟨false, rfl⟩)

/-- C8: on `"~~p"` versus `"p"`, for every predictor and every random
stream, the direct (NN-guided) strategy succeeds after exactly one iteration
and the single recorded transformation applies `double_negation` to
expression 1. -/
theorem c8_double_negation_one_step (pred : Expr → Expr → Nat × String)
    (rnds : Nat → Rnd) (maxIter : Nat) (h : 1 ≤ maxIter) :
    (proveEquivalenceNN pred rnds (Expr.neg (Expr.neg (Expr.atom "p")))
        (Expr.atom "p") maxIter).success = true ∧
    (proveEquivalenceNN pred rnds (Expr.neg (Expr.neg (Expr.atom "p")))
        (Expr.atom "p") maxIter).iterations = 1 ∧
    (proveEquivalenceNN pred rnds (Expr.neg (Expr.neg (Expr.atom "p")))
        (Expr.atom "p") maxIter).transformations.map Transformation.law =
      ["double_negation"] ∧
    (proveEquivalenceNN pred rnds (Expr.neg (Expr.neg (Expr.atom "p")))
        (Expr.atom "p") maxIter).transformations.map Transformation.proposition = [1] := by
  obtain ⟨rem, hrem⟩ : ∃ rem, maxIter = rem + 1 := ⟨maxIter - 1, by omega⟩
  subst hrem
  obtain ⟨b, hstep⟩ := nn_step_dn pred 0 (rnds 0)
  unfold proveEquivalenceNN
  unfold nnLoop
  rw [if_neg (by decide :
    ¬(areEqualE (Expr.neg (Expr.neg (Expr.atom "p"))) (Expr.atom "p") = true))]
  rw [hstep]
  cases rem with
  | zero =>
      unfold nnLoop
      rw [if_pos (by decide : areEqualE (Expr.atom "p") (Expr.atom "p") = true)]
      exact ⟨rfl, rfl, rfl, rfl⟩
  | succ rem2 =>
      unfold nnLoop
      rw [if_pos (by decide : areEqualE (Expr.atom "p") (Expr.atom "p") = true)]
      exact ⟨rfl, rfl, rfl, rfl⟩

/-- Witness for C8: a concrete predictor and random stream with budget 5. -/
theorem c8_witness :
    1 ≤ 5 ∧
    ((proveEquivalenceNN (fun _ _ => (1, "double_negation")) (fun _ => ⟨0, 0, false, 0⟩)
        (Expr.neg (Expr.neg (Expr.atom "p"))) (Expr.atom "p") 5).success = true ∧
     (proveEquivalenceNN (fun _ _ => (1, "double_negation")) (fun _ => ⟨0, 0, false, 0⟩)
        (Expr.neg (Expr.neg (Expr.atom "p"))) (Expr.atom "p") 5).iterations = 1 ∧
     (proveEquivalenceNN (fun _ _ => (1, "double_negation")) (fun _ => ⟨0, 0, false, 0⟩)
        (Expr.neg (Expr.neg (Expr.atom "p"))) (Expr.atom "p") 5).transformations.map
          Transformation.law = ["double_negation"] ∧
     (proveEquivalenceNN (fun _ _ => (1, "double_negation")) (fun _ => ⟨0, 0, false, 0⟩)
        (Expr.neg (Expr.neg (Expr.atom "p"))) (Expr.atom "p") 5).transformations.map
          Transformation.proposition = [1]) :=
  ⟨by decide, c8_double_negation_one_step _ _ 5 (by decide)⟩

theorem alpha_ne {c : Char} (d : Char) (hc : c.isAlpha = true)
    (hd : d.isAlpha = false) : ¬ c = d := by
  intro h
  subst h
  rw [hc] at hd
  simp at hd

theorem alpha_not_ws {c : Char} (hc : c.isAlpha = true) :
    c.isWhitespace = false := by
  cases hw : c.isWhitespace
  · rfl
  · exfalso
    simp only [Char.isWhitespace, Bool.or_eq_true, decide_eq_true_eq] at hw
    rcases hw with ((h | h) | h) | h <;>
      (subst h; exact absurd hc (by decide))

theorem nextToken_alpha_head {c : Char} (cs : List Char) (hc : c.isAlpha = true)
    (hv : ¬ c = 'v') : nextToken (c :: cs) = wordToken c cs := by
  have h1 := alpha_not_ws hc
  have h2 := alpha_ne '-' hc (by decide)
  have h3 := alpha_ne '=' hc (by decide)
  have h4 := alpha_ne '→' hc (by decide)
  have h5 := alpha_ne '~' hc (by decide)
  have h6 := alpha_ne '!' hc (by decide)
  have h7 := alpha_ne '¬' hc (by decide)
  have h8 := alpha_ne '^' hc (by decide)
  have h9 := alpha_ne '&' hc (by decide)
  have h10 := alpha_ne '*' hc (by decide)
  have h11 := alpha_ne '|' hc (by decide)
  have h12 := alpha_ne '+' hc (by decide)
  have h13 := alpha_ne '(' hc (by decide)
  have h14 := alpha_ne ')' hc (by decide)
  unfold nextToken
  simp [isOpNot, isOpAnd, isOpOr, h1, h2, h3, h4, h5, h6, h7, h8, h9, h10,
    h11, h12, h13, h14, hv]

theorem tokenizeAll_step {cs rest : List Char} {t : Tok}
    (h : nextToken cs = .ok (some t, rest)) :
    tokenizeAll cs = (tokenizeAll rest).map (fun ts => t :: ts) := by
  have hlt := nextToken_consume h
  obtain ⟨m, hm⟩ : ∃ m, cs.length = m + 1 := ⟨cs.length - 1, by omega⟩
  have key : tokenizeFuel (m + 1) rest = tokenizeAll rest :=
    (tokenizeFuel_congr (m + 1) (rest.length + 1) rest (by omega)
      (by omega)).trans rfl
  show tokenizeFuel (cs.length + 1) cs = _
  rw [hm]
  conv_lhs => rw [tokenizeFuel]
  rw [h]
  dsimp only
  rw [key]
  cases tokenizeAll rest with
  | error e => rfl
  | ok ts => rfl

theorem tokenizeAll_ws (X : List Char) :
    tokenizeAll (' ' :: X) = tokenizeAll X := by
  have hw : nextToken (' ' :: X) = nextToken X := rfl
  unfold tokenizeAll
  have hlen : (' ' :: X).length = X.length + 1 := rfl
  rw [hlen]
  conv_lhs => rw [tokenizeFuel]
  conv_rhs => rw [tokenizeFuel]
  rw [hw]
  cases hnt : nextToken X with
  | error e => rfl
  | ok pr =>
      cases pr with
      | mk t rest =>
          cases t with
          | none => rfl
          | some tok =>
              have hlt := nextToken_consume hnt
              dsimp only
              rw [tokenizeFuel_congr (X.length + 1) X.length rest (by omega)
                (by omega)]

theorem takeWhile_append_stop (p : Char → Bool) :
    ∀ (l s : List Char), (∀ c, s.head? = some c → p c = false) →
    (l ++ s).takeWhile p = l.takeWhile p := by
  intro l s hs
  induction l with
  | nil =>
      cases s with
      | nil => rfl
      | cons c s2 => simp [List.takeWhile_cons, hs c rfl]
  | cons a l ih =>
      simp only [List.cons_append, List.takeWhile_cons]
      cases hp : p a <;> simp [hp, ih]

theorem dropWhile_append_stop (p : Char → Bool) :
    ∀ (l s : List Char), (∀ c, s.head? = some c → p c = false) →
    (l ++ s).dropWhile p = l.dropWhile p ++ s := by
  intro l s hs
  induction l with
  | nil =>
      cases s with
      | nil => rfl
      | cons c s2 => simp [List.dropWhile_cons, hs c rfl]
  | cons a l ih =>
      simp only [List.cons_append, List.dropWhile_cons]
      cases hp : p a <;> simp [hp, ih]

theorem takeWhile_all (p : Char → Bool) :
    ∀ l : List Char, l.all p = true → l.takeWhile p = l := by
  intro l h
  induction l with
  | nil => rfl
  | cons a l ih =>
      simp only [List.all_cons, Bool.and_eq_true] at h
      simp [List.takeWhile_cons, h.1, ih h.2]

theorem dropWhile_all (p : Char → Bool) :
    ∀ l : List Char, l.all p = true → l.dropWhile p = [] := by
  intro l h
  induction l with
  | nil => rfl
  | cons a l ih =>
      simp only [List.all_cons, Bool.and_eq_true] at h
      simp [List.dropWhile_cons, h.1, ih h.2]

theorem all_takeWhile (p : Char → Bool) :
    ∀ l : List Char, (l.takeWhile p).all p = true := by
  intro l
  induction l with
  | nil => rfl
  | cons a l ih => cases hp : p a <;> simp [List.takeWhile_cons, hp, ih]

theorem takeWhile_ident_alpha : ∀ cs : List Char,
    (cs.takeWhile isIdentChar).takeWhile Char.isAlpha =
      cs.takeWhile Char.isAlpha := by
  intro cs
  induction cs with
  | nil => rfl
  | cons c cs ih =>
      cases ha : c.isAlpha
      · cases hid : isIdentChar c
        · simp [List.takeWhile_cons, hid, ha]
        · simp [List.takeWhile_cons, hid, ha]
      · have hid : isIdentChar c = true := by
          simp [isIdentChar, Char.isAlphanum, ha]
        simp [List.takeWhile_cons, hid, ha, ih]

theorem stringMkData (n : String) : String.mk n.data = n := rfl

theorem nextToken_valid_atom {n : String} (hn : validName n = true)
    (s : List Char)
    (hs : s = [] ∨ s.head? = some ' ' ∨ s.head? = some ')') :
    nextToken (n.data ++ s) = .ok (some (.atomT n), s) := by
  have hhead : ∀ (p : Char → Bool), p ' ' = false → p ')' = false →
      ∀ x, s.head? = some x → p x = false := by
    intro p hsp hrp x hx
    rcases hs with rfl | h | h
    · simp at hx
    · rw [h] at hx
      obtain rfl := Option.some.inj hx
      exact hsp
    · rw [h] at hx
      obtain rfl := Option.some.inj hx
      exact hrp
  have hsA := hhead Char.isAlpha (by decide) (by decide)
  have hsI := hhead isIdentChar (by decide) (by decide)
  cases hd : n.data with
  | nil =>
      exfalso
      unfold validName at hn
      rw [hd] at hn
      simp at hn
  | cons c cs =>
      unfold validName at hn
      rw [hd] at hn
      simp only [Bool.and_eq_true, Bool.not_eq_true', decide_eq_false_iff_not,
        decide_eq_true_eq] at hn
      obtain ⟨⟨⟨⟨⟨⟨⟨⟨⟨⟨ha, hv⟩, hall⟩, hA⟩, hO⟩, hN⟩, hI⟩, hTR⟩, hFA⟩,
        hT⟩, hF⟩ := hn
      have hword : wordOf (c :: (cs ++ s)) = wordOf (c :: cs) := by
        show wordOf ((c :: cs) ++ s) = _
        unfold wordOf alphaRun
        rw [takeWhile_append_stop _ _ _ hsA]
      have htake : (c :: (cs ++ s)).takeWhile isIdentChar = c :: cs := by
        show ((c :: cs) ++ s).takeWhile isIdentChar = _
        rw [takeWhile_append_stop _ _ _ hsI, takeWhile_all _ _ hall]
      have hdrop : (c :: (cs ++ s)).dropWhile isIdentChar = s := by
        show ((c :: cs) ++ s).dropWhile isIdentChar = _
        rw [dropWhile_append_stop _ _ _ hsI, dropWhile_all _ _ hall,
          List.nil_append]
      rw [List.cons_append, nextToken_alpha_head _ ha hv]
      unfold wordToken
      rw [hword, if_neg hA, if_neg hO, if_neg hN, if_neg hI, if_neg hTR,
        if_neg hFA, if_neg hT, if_neg hF, if_pos ha, htake, hdrop, ← hd,
        stringMkData]

theorem tokenize_render : ∀ (e : Expr), wfExpr e = true →
    ∀ (s : List Char) (ts : List Tok),
    (s = [] ∨ s.head? = some ' ' ∨ s.head? = some ')') →
    tokenizeAll s = .ok ts →
    tokenizeAll (renderChars e ++ s) = .ok (tokensOf e ++ ts) := by
  intro e
  induction e with
  | atom n =>
      intro hwf s ts hs hts
      have hnt := nextToken_valid_atom (by simpa [wfExpr] using hwf) s hs
      rw [show renderChars (.atom n) = n.data from rfl,
        tokenizeAll_step hnt, hts]
      rfl
  | const b =>
      intro hwf s ts hs hts
      have hstopA : ∀ x, s.head? = some x → Char.isAlpha x = false := by
        intro x hx
        rcases hs with rfl | h | h
        · simp at hx
        · rw [h] at hx
          obtain rfl := Option.some.inj hx
          decide
        · rw [h] at hx
          obtain rfl := Option.some.inj hx
          decide
      have hrun : s.takeWhile Char.isAlpha = [] := by
        have := takeWhile_append_stop Char.isAlpha [] s hstopA
        simpa using this
      cases b with
      | false =>
          have hnt : nextToken ('F' :: s) = .ok (some .tfalse, s) := by
            rw [show nextToken ('F' :: s) = wordToken 'F' s from rfl]
            unfold wordToken
            have hw : wordOf ('F' :: s) = "F" := by
              unfold wordOf alphaRun
              rw [List.takeWhile_cons, if_pos (by decide), hrun]
              rfl
            rw [hw, if_neg (by decide), if_neg (by decide), if_neg (by decide),
              if_neg (by decide), if_neg (by decide), if_neg (by decide),
              if_neg (by decide), if_pos (by decide)]
          rw [show renderChars (.const false) ++ s = 'F' :: s from rfl,
            tokenizeAll_step hnt, hts]
          rfl
      | true =>
          have hnt : nextToken ('T' :: s) = .ok (some .ttrue, s) := by
            rw [show nextToken ('T' :: s) = wordToken 'T' s from rfl]
            unfold wordToken
            have hw : wordOf ('T' :: s) = "T" := by
              unfold wordOf alphaRun
              rw [List.takeWhile_cons, if_pos (by decide), hrun]
              rfl
            rw [hw, if_neg (by decide), if_neg (by decide), if_neg (by decide),
              if_neg (by decide), if_neg (by decide), if_neg (by decide),
              if_pos (by decide)]
          rw [show renderChars (.const true) ++ s = 'T' :: s from rfl,
            tokenizeAll_step hnt, hts]
          rfl
  | neg a ih =>
      intro hwf s ts hs hts
      have hwa : wfExpr a = true := by simpa [wfExpr] using hwf
      have h1 : tokenizeAll (')' :: s) = .ok (.rparen :: ts) := by
        rw [tokenizeAll_step
          (show nextToken (')' :: s) = .ok (some .rparen, s) from rfl), hts]
        rfl
      have h2 := ih hwa (')' :: s) (.rparen :: ts) (.inr (.inr rfl)) h1
      have h3 : tokenizeAll ('¬' :: (renderChars a ++ ')' :: s)) =
          .ok (.tnot :: (tokensOf a ++ .rparen :: ts)) := by
        rw [tokenizeAll_step
          (show nextToken ('¬' :: (renderChars a ++ ')' :: s)) =
            .ok (some .tnot, renderChars a ++ ')' :: s) from rfl), h2]
        rfl
      have h4 : tokenizeAll ('(' :: '¬' :: (renderChars a ++ ')' :: s)) =
          .ok (.lparen :: .tnot :: (tokensOf a ++ .rparen :: ts)) := by
        rw [tokenizeAll_step
          (show nextToken ('(' :: '¬' :: (renderChars a ++ ')' :: s)) =
            .ok (some .lparen, '¬' :: (renderChars a ++ ')' :: s)) from rfl),
          h3]
        rfl
      simpa [renderChars, tokensOf, List.append_assoc] using h4
  | conj a b iha ihb =>
      intro hwf s ts hs hts
      have hw : wfExpr a = true ∧ wfExpr b = true := by
        simpa [wfExpr, Bool.and_eq_true] using hwf
      have h1 : tokenizeAll (')' :: s) = .ok (.rparen :: ts) := by
        rw [tokenizeAll_step
          (show nextToken (')' :: s) = .ok (some .rparen, s) from rfl), hts]
        rfl
      have h2 := ihb hw.2 (')' :: s) (.rparen :: ts) (.inr (.inr rfl)) h1
      have h3 : tokenizeAll (' ' :: (renderChars b ++ ')' :: s)) =
          .ok (tokensOf b ++ .rparen :: ts) := (tokenizeAll_ws _).trans h2
      have h4 : tokenizeAll ('^' :: ' ' :: (renderChars b ++ ')' :: s)) =
          .ok (.tand :: (tokensOf b ++ .rparen :: ts)) := by
        rw [tokenizeAll_step
          (show nextToken ('^' :: ' ' :: (renderChars b ++ ')' :: s)) =
            .ok (some .tand, ' ' :: (renderChars b ++ ')' :: s)) from rfl),
          h3]
        rfl
      have h5 : tokenizeAll (' ' :: '^' :: ' ' :: (renderChars b ++ ')' :: s)) =
          .ok (.tand :: (tokensOf b ++ .rparen :: ts)) :=
        (tokenizeAll_ws _).trans h4
      have h6 := iha hw.1 (' ' :: '^' :: ' ' :: (renderChars b ++ ')' :: s))
        (.tand :: (tokensOf b ++ .rparen :: ts)) (.inr (.inl rfl)) h5
      have h7 : tokenizeAll ('(' ::
          (renderChars a ++ ' ' :: '^' :: ' ' :: (renderChars b ++ ')' :: s))) =
          .ok (.lparen ::
            (tokensOf a ++ .tand :: (tokensOf b ++ .rparen :: ts))) := by
        rw [tokenizeAll_step
          (show nextToken ('(' :: (renderChars a ++
              ' ' :: '^' :: ' ' :: (renderChars b ++ ')' :: s))) =
            .ok (some .lparen, renderChars a ++
              ' ' :: '^' :: ' ' :: (renderChars b ++ ')' :: s)) from rfl),
          h6]
        rfl
      simpa [renderChars, tokensOf, List.append_assoc] using h7
  | disj a b iha ihb =>
      intro hwf s ts hs hts
      have hw : wfExpr a = true ∧ wfExpr b = true := by
        simpa [wfExpr, Bool.and_eq_true] using hwf
      have h1 : tokenizeAll (')' :: s) = .ok (.rparen :: ts) := by
        rw [tokenizeAll_step
          (show nextToken (')' :: s) = .ok (some .rparen, s) from rfl), hts]
        rfl
      have h2 := ihb hw.2 (')' :: s) (.rparen :: ts) (.inr (.inr rfl)) h1
      have h3 : tokenizeAll (' ' :: (renderChars b ++ ')' :: s)) =
          .ok (tokensOf b ++ .rparen :: ts) := (tokenizeAll_ws _).trans h2
      have h4 : tokenizeAll ('v' :: ' ' :: (renderChars b ++ ')' :: s)) =
          .ok (.tor :: (tokensOf b ++ .rparen :: ts)) := by
        rw [tokenizeAll_step
          (show nextToken ('v' :: ' ' :: (renderChars b ++ ')' :: s)) =
            .ok (some .tor, ' ' :: (renderChars b ++ ')' :: s)) from rfl),
          h3]
        rfl
      have h5 : tokenizeAll (' ' :: 'v' :: ' ' :: (renderChars b ++ ')' :: s)) =
          .ok (.tor :: (tokensOf b ++ .rparen :: ts)) :=
        (tokenizeAll_ws _).trans h4
      have h6 := iha hw.1 (' ' :: 'v' :: ' ' :: (renderChars b ++ ')' :: s))
        (.tor :: (tokensOf b ++ .rparen :: ts)) (.inr (.inl rfl)) h5
      have h7 : tokenizeAll ('(' ::
          (renderChars a ++ ' ' :: 'v' :: ' ' :: (renderChars b ++ ')' :: s))) =
          .ok (.lparen ::
            (tokensOf a ++ .tor :: (tokensOf b ++ .rparen :: ts))) := by
        rw [tokenizeAll_step
          (show nextToken ('(' :: (renderChars a ++
              ' ' :: 'v' :: ' ' :: (renderChars b ++ ')' :: s))) =
            .ok (some .lparen, renderChars a ++
              ' ' :: 'v' :: ' ' :: (renderChars b ++ ')' :: s)) from rfl),
          h6]
        rfl
      simpa [renderChars, tokensOf, List.append_assoc] using h7
  | impl a b iha ihb =>
      intro hwf s ts hs hts
      have hw : wfExpr a = true ∧ wfExpr b = true := by
        simpa [wfExpr, Bool.and_eq_true] using hwf
      have h1 : tokenizeAll (')' :: s) = .ok (.rparen :: ts) := by
        rw [tokenizeAll_step
          (show nextToken (')' :: s) = .ok (some .rparen, s) from rfl), hts]
        rfl
      have h2 := ihb hw.2 (')' :: s) (.rparen :: ts) (.inr (.inr rfl)) h1
      have h3 : tokenizeAll (' ' :: (renderChars b ++ ')' :: s)) =
          .ok (tokensOf b ++ .rparen :: ts) := (tokenizeAll_ws _).trans h2
      have h4 : tokenizeAll ('→' :: ' ' :: (renderChars b ++ ')' :: s)) =
          .ok (.timpl :: (tokensOf b ++ .rparen :: ts)) := by
        rw [tokenizeAll_step
          (show nextToken ('→' :: ' ' :: (renderChars b ++ ')' :: s)) =
            .ok (some .timpl, ' ' :: (renderChars b ++ ')' :: s)) from rfl),
          h3]
        rfl
      have h5 : tokenizeAll (' ' :: '→' :: ' ' :: (renderChars b ++ ')' :: s)) =
          .ok (.timpl :: (tokensOf b ++ .rparen :: ts)) :=
        (tokenizeAll_ws _).trans h4
      have h6 := iha hw.1 (' ' :: '→' :: ' ' :: (renderChars b ++ ')' :: s))
        (.timpl :: (tokensOf b ++ .rparen :: ts)) (.inr (.inl rfl)) h5
      have h7 : tokenizeAll ('(' ::
          (renderChars a ++ ' ' :: '→' :: ' ' :: (renderChars b ++ ')' :: s))) =
          .ok (.lparen ::
            (tokensOf a ++ .timpl :: (tokensOf b ++ .rparen :: ts))) := by
        rw [tokenizeAll_step
          (show nextToken ('(' :: (renderChars a ++
              ' ' :: '→' :: ' ' :: (renderChars b ++ ')' :: s))) =
            .ok (some .lparen, renderChars a ++
              ' ' :: '→' :: ' ' :: (renderChars b ++ ')' :: s)) from rfl),
          h6]
        rfl
      simpa [renderChars, tokensOf, List.append_assoc] using h7

theorem tokenizeAll_render (e : Expr) (hwf : wfExpr e = true) :
    tokenizeAll (renderChars e) = .ok (tokensOf e) := by
  have := tokenize_render e hwf [] [] (.inl rfl) rfl
  simpa using this

theorem wordToken_atom_valid {c : Char} {cs rest : List Char} {n : String}
    (hv : ¬ c = 'v')
    (h : wordToken c cs = .ok (some (.atomT n), rest)) : validName n = true := by
  unfold wordToken at h
  split at h
  · simp at h
  split at h
  · simp at h
  split at h
  · simp at h
  split at h
  · simp at h
  split at h
  · simp at h
  split at h
  · simp at h
  split at h
  · simp at h
  split at h
  · simp at h
  split at h
  · rename_i hA hO hN hI hTR hFA hT hF ha
    simp only [Except.ok.injEq, Prod.mk.injEq, Option.some.injEq,
      Tok.atomT.injEq] at h
    obtain ⟨hn, -⟩ := h
    subst hn
    have hid : isIdentChar c = true := by
      simp [isIdentChar, Char.isAlphanum, ha]
    have htw : (c :: cs).takeWhile isIdentChar =
        c :: cs.takeWhile isIdentChar := by
      simp [List.takeWhile_cons, hid]
    have hword : wordOf (c :: cs.takeWhile isIdentChar) = wordOf (c :: cs) := by
      unfold wordOf alphaRun
      rw [show (c :: cs.takeWhile isIdentChar).takeWhile Char.isAlpha =
          ((c :: cs).takeWhile isIdentChar).takeWhile Char.isAlpha from by
        rw [htw]]
      rw [takeWhile_ident_alpha]
    have hall : (c :: cs.takeWhile isIdentChar).all isIdentChar = true := by
      simp [List.all_cons, hid, all_takeWhile]
    rw [htw]
    unfold validName
    dsimp only
    simp only [Bool.and_eq_true, Bool.not_eq_true', decide_eq_false_iff_not,
      decide_eq_true_eq]
    exact ⟨⟨⟨⟨⟨⟨⟨⟨⟨⟨ha, hv⟩, hall⟩,
      by rw [hword]; exact hA⟩, by rw [hword]; exact hO⟩,
      by rw [hword]; exact hN⟩, by rw [hword]; exact hI⟩,
      by rw [hword]; exact hTR⟩, by rw [hword]; exact hFA⟩,
      by rw [hword]; exact hT⟩, by rw [hword]; exact hF⟩
  · simp at h

theorem nextToken_atom_valid : ∀ {cs : List Char} {rest : List Char}
    {n : String}, nextToken cs = .ok (some (.atomT n), rest) →
    validName n = true := by
  intro cs
  induction cs with
  | nil =>
      intro rest n h
      simp [nextToken] at h
  | cons c cs ih =>
      intro rest n h
      unfold nextToken at h
      split at h
      · exact ih h
      split at h
      · split at h
        · simp at h
        · simp at h
      split at h
      · simp at h
      split at h
      · simp at h
      split at h
      · simp at h
      split at h
      · simp at h
      split at h
      · simp at h
      split at h
      · simp at h
      · rename_i hw1 hw2 hw3 hw4 hw5 hw6 hw7 hw8
        have hv : ¬ c = 'v' := by
          intro hc
          subst hc
          simp [isOpOr] at hw6
        exact wordToken_atom_valid hv h

theorem tokenizeFuel_atoms : ∀ (fuel : Nat) (cs : List Char) (ts : List Tok),
    tokenizeFuel fuel cs = .ok ts → tokAtomsOk ts = true := by
  intro fuel
  induction fuel with
  | zero =>
      intro cs ts h
      simp [tokenizeFuel] at h
  | succ f ih =>
      intro cs ts h
      unfold tokenizeFuel at h
      cases hnt : nextToken cs with
      | error e => rw [hnt] at h; simp at h
      | ok pr =>
          rw [hnt] at h
          cases pr with
          | mk t rest =>
              cases t with
              | none =>
                  simp only [Except.ok.injEq] at h
                  subst h
                  rfl
              | some tok =>
                  dsimp only at h
                  cases hrec : tokenizeFuel f rest with
                  | error e => rw [hrec] at h; simp at h
                  | ok ts2 =>
                      rw [hrec] at h
                      simp only [Except.ok.injEq] at h
                      subst h
                      have hts2 := ih rest ts2 hrec
                      simp only [tokAtomsOk, List.all_cons,
                        Bool.and_eq_true] at hts2 ⊢
                      refine ⟨?_, hts2⟩
                      cases tok with
                      | atomT m => exact nextToken_atom_valid hnt
                      | ttrue => rfl
                      | tfalse => rfl
                      | tnot => rfl
                      | tand => rfl
                      | tor => rfl
                      | timpl => rfl
                      | lparen => rfl
                      | rparen => rfl

theorem tokAtomsOk_tail {t : Tok} {ts : List Tok}
    (h : tokAtomsOk (t :: ts) = true) : tokAtomsOk ts = true := by
  simp only [tokAtomsOk, List.all_cons, Bool.and_eq_true] at h
  exact h.2

theorem tokAtomsOk_head_atom {n : String} {ts : List Tok}
    (h : tokAtomsOk (.atomT n :: ts) = true) : validName n = true := by
  simp only [tokAtomsOk, List.all_cons, Bool.and_eq_true] at h
  exact h.1

theorem parse_atoms_ok : ∀ fuel : Nat,
    (∀ ts e rest, parsePrimary fuel ts = some (e, rest) →
      tokAtomsOk ts = true → wfExpr e = true ∧ tokAtomsOk rest = true) ∧
    (∀ ts e rest, parseUnary fuel ts = some (e, rest) →
      tokAtomsOk ts = true → wfExpr e = true ∧ tokAtomsOk rest = true) ∧
    (∀ acc ts e rest, parseConjLoop fuel acc ts = some (e, rest) →
      wfExpr acc = true → tokAtomsOk ts = true →
      wfExpr e = true ∧ tokAtomsOk rest = true) ∧
    (∀ ts e rest, parseConjunction fuel ts = some (e, rest) →
      tokAtomsOk ts = true → wfExpr e = true ∧ tokAtomsOk rest = true) ∧
    (∀ acc ts e rest, parseDisjLoop fuel acc ts = some (e, rest) →
      wfExpr acc = true → tokAtomsOk ts = true →
      wfExpr e = true ∧ tokAtomsOk rest = true) ∧
    (∀ ts e rest, parseDisjunction fuel ts = some (e, rest) →
      tokAtomsOk ts = true → wfExpr e = true ∧ tokAtomsOk rest = true) ∧
    (∀ ts e rest, parseImplication fuel ts = some (e, rest) →
      tokAtomsOk ts = true → wfExpr e = true ∧ tokAtomsOk rest = true) ∧
    (∀ ts e rest, parseExpression fuel ts = some (e, rest) →
      tokAtomsOk ts = true → wfExpr e = true ∧ tokAtomsOk rest = true) := by
  intro fuel
  induction fuel with
  | zero =>
      exact ⟨fun ts e rest h => by simp [parsePrimary] at h,
        fun ts e rest h => by simp [parseUnary] at h,
        fun acc ts e rest h => by simp [parseConjLoop] at h,
        fun ts e rest h => by simp [parseConjunction] at h,
        fun acc ts e rest h => by simp [parseDisjLoop] at h,
        fun ts e rest h => by simp [parseDisjunction] at h,
        fun ts e rest h => by simp [parseImplication] at h,
        fun ts e rest h => by simp [parseExpression] at h⟩
  | succ f ih =>
      obtain ⟨ihP, ihU, ihCL, ihC, ihDL, ihD, ihI, ihE⟩ := ih
      refine ⟨?_, ?_, ?_, ?_, ?_, ?_, ?_, ?_⟩
      · intro ts e rest h hok
        unfold parsePrimary at h
        cases ts with
        | nil => simp at h
        | cons t ts2 =>
            cases t with
            | atomT m =>
                dsimp only at h
                simp only [Option.some.injEq, Prod.mk.injEq] at h
                obtain ⟨rfl, rfl⟩ := h
                exact ⟨tokAtomsOk_head_atom hok, tokAtomsOk_tail hok⟩
            | ttrue =>
                dsimp only at h
                simp only [Option.some.injEq, Prod.mk.injEq] at h
                obtain ⟨rfl, rfl⟩ := h
                exact ⟨rfl, tokAtomsOk_tail hok⟩
            | tfalse =>
                dsimp only at h
                simp only [Option.some.injEq, Prod.mk.injEq] at h
                obtain ⟨rfl, rfl⟩ := h
                exact ⟨rfl, tokAtomsOk_tail hok⟩
            | lparen =>
                dsimp only at h
                cases hpe : parseExpression f ts2 with
                | none => rw [hpe] at h; simp at h
                | some pr =>
                    rw [hpe] at h
                    cases pr with
                    | mk e2 rest2 =>
                        dsimp only at h
                        obtain ⟨hwe2, hok2⟩ :=
                          ihE ts2 e2 rest2 hpe (tokAtomsOk_tail hok)
                        cases rest2 with
                        | nil => simp at h
                        | cons r rest3 =>
                            cases r with
                            | rparen =>
                                dsimp only at h
                                simp only [Option.some.injEq,
                                  Prod.mk.injEq] at h
                                obtain ⟨rfl, rfl⟩ := h
                                exact ⟨hwe2, tokAtomsOk_tail hok2⟩
                            | atomT m => simp at h
                            | ttrue => simp at h
                            | tfalse => simp at h
                            | tnot => simp at h
                            | tand => simp at h
                            | tor => simp at h
                            | timpl => simp at h
                            | lparen => simp at h
            | tnot => simp at h
            | tand => simp at h
            | tor => simp at h
            | timpl => simp at h
            | rparen => simp at h
      · intro ts e rest h hok
        unfold parseUnary at h
        cases ts with
        | nil =>
            dsimp only at h
            exact ihP [] e rest h hok
        | cons t ts2 =>
            cases t with
            | tnot =>
                dsimp only at h
                cases hpu : parseUnary f ts2 with
                | none => rw [hpu] at h; simp at h
                | some pr =>
                    rw [hpu] at h
                    cases pr with
                    | mk a rest2 =>
                        dsimp only at h
                        simp only [Option.some.injEq, Prod.mk.injEq] at h
                        obtain ⟨rfl, rfl⟩ := h
                        obtain ⟨hwa, hokr⟩ :=
                          ihU ts2 a rest2 hpu (tokAtomsOk_tail hok)
                        exact ⟨hwa, hokr⟩
            | atomT m =>
                dsimp only at h
                exact ihP _ e rest h hok
            | ttrue =>
                dsimp only at h
                exact ihP _ e rest h hok
            | tfalse =>
                dsimp only at h
                exact ihP _ e rest h hok
            | tand =>
                dsimp only at h
                exact ihP _ e rest h hok
            | tor =>
                dsimp only at h
                exact ihP _ e rest h hok
            | timpl =>
                dsimp only at h
                exact ihP _ e rest h hok
            | lparen =>
                dsimp only at h
                exact ihP _ e rest h hok
            | rparen =>
                dsimp only at h
                exact ihP _ e rest h hok
      · intro acc ts e rest h hacc hok
        unfold parseConjLoop at h
        cases ts with
        | nil =>
            dsimp only at h
            simp only [Option.some.injEq, Prod.mk.injEq] at h
            obtain ⟨rfl, rfl⟩ := h
            exact ⟨hacc, hok⟩
        | cons t ts2 =>
            cases t with
            | tand =>
                dsimp only at h
                cases hpu : parseUnary f ts2 with
                | none => rw [hpu] at h; simp at h
                | some pr =>
                    rw [hpu] at h
                    cases pr with
                    | mk r rest2 =>
                        dsimp only at h
                        obtain ⟨hwr, hok2⟩ :=
                          ihU ts2 r rest2 hpu (tokAtomsOk_tail hok)
                        exact ihCL (.conj acc r) rest2 e rest h
                          (by simp [wfExpr, hacc, hwr]) hok2
            | atomT m =>
                dsimp only at h
                simp only [Option.some.injEq, Prod.mk.injEq] at h
                obtain ⟨rfl, rfl⟩ := h
                exact ⟨hacc, hok⟩
            | ttrue =>
                dsimp only at h
                simp only [Option.some.injEq, Prod.mk.injEq] at h
                obtain ⟨rfl, rfl⟩ := h
                exact ⟨hacc, hok⟩
            | tfalse =>
                dsimp only at h
                simp only [Option.some.injEq, Prod.mk.injEq] at h
                obtain ⟨rfl, rfl⟩ := h
                exact ⟨hacc, hok⟩
            | tnot =>
                dsimp only at h
                simp only [Option.some.injEq, Prod.mk.injEq] at h
                obtain ⟨rfl, rfl⟩ := h
                exact ⟨hacc, hok⟩
            | tor =>
                dsimp only at h
                simp only [Option.some.injEq, Prod.mk.injEq] at h
                obtain ⟨rfl, rfl⟩ := h
                exact ⟨hacc, hok⟩
            | timpl =>
                dsimp only at h
                simp only [Option.some.injEq, Prod.mk.injEq] at h
                obtain ⟨rfl, rfl⟩ := h
                exact ⟨hacc, hok⟩
            | lparen =>
                dsimp only at h
                simp only [Option.some.injEq, Prod.mk.injEq] at h
                obtain ⟨rfl, rfl⟩ := h
                exact ⟨hacc, hok⟩
            | rparen =>
                dsimp only at h
                simp only [Option.some.injEq, Prod.mk.injEq] at h
                obtain ⟨rfl, rfl⟩ := h
                exact ⟨hacc, hok⟩
      · intro ts e rest h hok
        unfold parseConjunction at h
        cases hpu : parseUnary f ts with
        | none => rw [hpu] at h; simp at h
        | some pr =>
            rw [hpu] at h
            cases pr with
            | mk l rest1 =>
                dsimp only at h
                obtain ⟨hwl, hok1⟩ := ihU ts l rest1 hpu hok
                exact ihCL l rest1 e rest h hwl hok1
      · intro acc ts e rest h hacc hok
        unfold parseDisjLoop at h
        cases ts with
        | nil =>
            dsimp only at h
            simp only [Option.some.injEq, Prod.mk.injEq] at h
            obtain ⟨rfl, rfl⟩ := h
            exact ⟨hacc, hok⟩
        | cons t ts2 =>
            cases t with
            | tor =>
                dsimp only at h
                cases hpc : parseConjunction f ts2 with
                | none => rw [hpc] at h; simp at h
                | some pr =>
                    rw [hpc] at h
                    cases pr with
                    | mk r rest2 =>
                        dsimp only at h
                        obtain ⟨hwr, hok2⟩ :=
                          ihC ts2 r rest2 hpc (tokAtomsOk_tail hok)
                        exact ihDL (.disj acc r) rest2 e rest h
                          (by simp [wfExpr, hacc, hwr]) hok2
            | atomT m =>
                dsimp only at h
                simp only [Option.some.injEq, Prod.mk.injEq] at h
                obtain ⟨rfl, rfl⟩ := h
                exact ⟨hacc, hok⟩
            | ttrue =>
                dsimp only at h
                simp only [Option.some.injEq, Prod.mk.injEq] at h
                obtain ⟨rfl, rfl⟩ := h
                exact ⟨hacc, hok⟩
            | tfalse =>
                dsimp only at h
                simp only [Option.some.injEq, Prod.mk.injEq] at h
                obtain ⟨rfl, rfl⟩ := h
                exact ⟨hacc, hok⟩
            | tnot =>
                dsimp only at h
                simp only [Option.some.injEq, Prod.mk.injEq] at h
                obtain ⟨rfl, rfl⟩ := h
                exact ⟨hacc, hok⟩
            | tand =>
                dsimp only at h
                simp only [Option.some.injEq, Prod.mk.injEq] at h
                obtain ⟨rfl, rfl⟩ := h
                exact ⟨hacc, hok⟩
            | timpl =>
                dsimp only at h
                simp only [Option.some.injEq, Prod.mk.injEq] at h
                obtain ⟨rfl, rfl⟩ := h
                exact ⟨hacc, hok⟩
            | lparen =>
                dsimp only at h
                simp only [Option.some.injEq, Prod.mk.injEq] at h
                obtain ⟨rfl, rfl⟩ := h
                exact ⟨hacc, hok⟩
            | rparen =>
                dsimp only at h
                simp only [Option.some.injEq, Prod.mk.injEq] at h
                obtain ⟨rfl, rfl⟩ := h
                exact ⟨hacc, hok⟩
      · intro ts e rest h hok
        unfold parseDisjunction at h
        cases hpc : parseConjunction f ts with
        | none => rw [hpc] at h; simp at h
        | some pr =>
            rw [hpc] at h
            cases pr with
            | mk l rest1 =>
                dsimp only at h
                obtain ⟨hwl, hok1⟩ := ihC ts l rest1 hpc hok
                exact ihDL l rest1 e rest h hwl hok1
      · intro ts e rest h hok
        unfold parseImplication at h
        cases hpd : parseDisjunction f ts with
        | none => rw [hpd] at h; simp at h
        | some pr =>
            rw [hpd] at h
            cases pr with
            | mk l rest1 =>
                dsimp only at h
                obtain ⟨hwl, hok1⟩ := ihD ts l rest1 hpd hok
                cases rest1 with
                | nil =>
                    dsimp only at h
                    simp only [Option.some.injEq, Prod.mk.injEq] at h
                    obtain ⟨rfl, rfl⟩ := h
                    exact ⟨hwl, hok1⟩
                | cons r rest2 =>
                    cases r with
                    | timpl =>
                        dsimp only at h
                        cases hpi : parseImplication f rest2 with
                        | none => rw [hpi] at h; simp at h
                        | some pr2 =>
                            rw [hpi] at h
                            cases pr2 with
                            | mk rr rest3 =>
                                dsimp only at h
                                simp only [Option.some.injEq,
                                  Prod.mk.injEq] at h
                                obtain ⟨rfl, rfl⟩ := h
                                obtain ⟨hwr, hok3⟩ := ihI rest2 rr rest3 hpi
                                  (tokAtomsOk_tail hok1)
                                exact ⟨by simp [wfExpr, hwl, hwr], hok3⟩
                    | atomT m =>
                        dsimp only at h
                        simp only [Option.some.injEq, Prod.mk.injEq] at h
                        obtain ⟨rfl, rfl⟩ := h
                        exact ⟨hwl, hok1⟩
                    | ttrue =>
                        dsimp only at h
                        simp only [Option.some.injEq, Prod.mk.injEq] at h
                        obtain ⟨rfl, rfl⟩ := h
                        exact ⟨hwl, hok1⟩
                    | tfalse =>
                        dsimp only at h
                        simp only [Option.some.injEq, Prod.mk.injEq] at h
                        obtain ⟨rfl, rfl⟩ := h
                        exact ⟨hwl, hok1⟩
                    | tnot =>
                        dsimp only at h
                        simp only [Option.some.injEq, Prod.mk.injEq] at h
                        obtain ⟨rfl, rfl⟩ := h
                        exact ⟨hwl, hok1⟩
                    | tand =>
                        dsimp only at h
                        simp only [Option.some.injEq, Prod.mk.injEq] at h
                        obtain ⟨rfl, rfl⟩ := h
                        exact ⟨hwl, hok1⟩
                    | tor =>
                        dsimp only at h
                        simp only [Option.some.injEq, Prod.mk.injEq] at h
                        obtain ⟨rfl, rfl⟩ := h
                        exact ⟨hwl, hok1⟩
                    | lparen =>
                        dsimp only at h
                        simp only [Option.some.injEq, Prod.mk.injEq] at h
                        obtain ⟨rfl, rfl⟩ := h
                        exact ⟨hwl, hok1⟩
                    | rparen =>
                        dsimp only at h
                        simp only [Option.some.injEq, Prod.mk.injEq] at h
                        obtain ⟨rfl, rfl⟩ := h
                        exact ⟨hwl, hok1⟩
      · intro ts e rest h hok
        unfold parseExpression at h
        exact ihI ts e rest h hok

theorem pfuel_pos : ∀ e : Expr, 1 ≤ pfuel e := by
  intro e
  cases e <;> simp [pfuel]

theorem parseConjLoop_stop {fuel : Nat} (hf : 1 ≤ fuel) (acc : Expr)
    {ts : List Tok} (hts : ts.head? ≠ some Tok.tand) :
    parseConjLoop fuel acc ts = some (acc, ts) := by
  obtain ⟨f, rfl⟩ : ∃ f, fuel = f + 1 := ⟨fuel - 1, by omega⟩
  unfold parseConjLoop
  cases ts with
  | nil => rfl
  | cons t ts2 =>
      cases t with
      | tand => exact absurd rfl hts
      | atomT m => rfl
      | ttrue => rfl
      | tfalse => rfl
      | tnot => rfl
      | tor => rfl
      | timpl => rfl
      | lparen => rfl
      | rparen => rfl

theorem parseDisjLoop_stop {fuel : Nat} (hf : 1 ≤ fuel) (acc : Expr)
    {ts : List Tok} (hts : ts.head? ≠ some Tok.tor) :
    parseDisjLoop fuel acc ts = some (acc, ts) := by
  obtain ⟨f, rfl⟩ : ∃ f, fuel = f + 1 := ⟨fuel - 1, by omega⟩
  unfold parseDisjLoop
  cases ts with
  | nil => rfl
  | cons t ts2 =>
      cases t with
      | tor => exact absurd rfl hts
      | atomT m => rfl
      | ttrue => rfl
      | tfalse => rfl
      | tnot => rfl
      | tand => rfl
      | timpl => rfl
      | lparen => rfl
      | rparen => rfl

theorem tokensOf_shape (x : Expr) :
    ∃ t tl, tokensOf x = t :: tl ∧ t ≠ Tok.tnot := by
  cases x with
  | atom n => exact ⟨.atomT n, [], rfl, fun h => Tok.noConfusion h⟩
  | const b =>
      cases b with
      | false => exact ⟨.tfalse, [], rfl, fun h => Tok.noConfusion h⟩
      | true => exact ⟨.ttrue, [], rfl, fun h => Tok.noConfusion h⟩
  | neg a => exact ⟨.lparen, _, rfl, fun h => Tok.noConfusion h⟩
  | conj a b => exact ⟨.lparen, _, rfl, fun h => Tok.noConfusion h⟩
  | disj a b => exact ⟨.lparen, _, rfl, fun h => Tok.noConfusion h⟩
  | impl a b => exact ⟨.lparen, _, rfl, fun h => Tok.noConfusion h⟩

theorem parseUnary_chain {x : Expr}
    (HP : ∀ fuel rest, pfuel x ≤ fuel →
      parsePrimary fuel (tokensOf x ++ rest) = some (x, rest)) :
    ∀ fuel rest, pfuel x + 1 ≤ fuel →
      parseUnary fuel (tokensOf x ++ rest) = some (x, rest) := by
  intro fuel rest h
  obtain ⟨f, rfl⟩ : ∃ f, fuel = f + 1 := ⟨fuel - 1, by omega⟩
  have hp := HP f rest (by omega)
  obtain ⟨t, tl, htok, hnt⟩ := tokensOf_shape x
  rw [htok] at hp ⊢
  rw [List.cons_append] at hp ⊢
  unfold parseUnary
  cases t with
  | tnot => exact absurd rfl hnt
  | atomT m => exact hp
  | ttrue => exact hp
  | tfalse => exact hp
  | tand => exact hp
  | tor => exact hp
  | timpl => exact hp
  | lparen => exact hp
  | rparen => exact hp

theorem parseConjunction_chain {x : Expr}
    (HP : ∀ fuel rest, pfuel x ≤ fuel →
      parsePrimary fuel (tokensOf x ++ rest) = some (x, rest)) :
    ∀ fuel rest, pfuel x + 3 ≤ fuel → rest.head? ≠ some Tok.tand →
      parseConjunction fuel (tokensOf x ++ rest) = some (x, rest) := by
  intro fuel rest h hh
  obtain ⟨f, rfl⟩ : ∃ f, fuel = f + 1 := ⟨fuel - 1, by omega⟩
  unfold parseConjunction
  rw [parseUnary_chain HP f rest (by omega)]
  dsimp only
  exact parseConjLoop_stop (by omega) x hh

theorem parseDisjunction_chain {x : Expr}
    (HP : ∀ fuel rest, pfuel x ≤ fuel →
      parsePrimary fuel (tokensOf x ++ rest) = some (x, rest)) :
    ∀ fuel rest, pfuel x + 4 ≤ fuel → rest.head? ≠ some Tok.tand →
      rest.head? ≠ some Tok.tor →
      parseDisjunction fuel (tokensOf x ++ rest) = some (x, rest) := by
  intro fuel rest h h1 h2
  obtain ⟨f, rfl⟩ : ∃ f, fuel = f + 1 := ⟨fuel - 1, by omega⟩
  unfold parseDisjunction
  rw [parseConjunction_chain HP f rest (by omega) h1]
  dsimp only
  exact parseDisjLoop_stop (by omega) x h2

theorem parseImplication_chain {x : Expr}
    (HP : ∀ fuel rest, pfuel x ≤ fuel →
      parsePrimary fuel (tokensOf x ++ rest) = some (x, rest)) :
    ∀ fuel rest, pfuel x + 5 ≤ fuel → rest.head? ≠ some Tok.tand →
      rest.head? ≠ some Tok.tor → rest.head? ≠ some Tok.timpl →
      parseImplication fuel (tokensOf x ++ rest) = some (x, rest) := by
  intro fuel rest h h1 h2 h3
  obtain ⟨f, rfl⟩ : ∃ f, fuel = f + 1 := ⟨fuel - 1, by omega⟩
  unfold parseImplication
  rw [parseDisjunction_chain HP f rest (by omega) h1 h2]
  dsimp only
  cases rest with
  | nil => rfl
  | cons r rest2 =>
      cases r with
      | timpl => exact absurd rfl h3
      | atomT m => rfl
      | ttrue => rfl
      | tfalse => rfl
      | tnot => rfl
      | tand => rfl
      | tor => rfl
      | lparen => rfl
      | rparen => rfl

theorem parseExpression_chain {x : Expr}
    (HP : ∀ fuel rest, pfuel x ≤ fuel →
      parsePrimary fuel (tokensOf x ++ rest) = some (x, rest)) :
    ∀ fuel rest, pfuel x + 6 ≤ fuel → rest.head? ≠ some Tok.tand →
      rest.head? ≠ some Tok.tor → rest.head? ≠ some Tok.timpl →
      parseExpression fuel (tokensOf x ++ rest) = some (x, rest) := by
  intro fuel rest h h1 h2 h3
  obtain ⟨f, rfl⟩ : ∃ f, fuel = f + 1 := ⟨fuel - 1, by omega⟩
  unfold parseExpression
  exact parseImplication_chain HP f rest (by omega) h1 h2 h3

theorem parseExpr_neg_chain {x : Expr}
    (HP : ∀ fuel rest, pfuel x ≤ fuel →
      parsePrimary fuel (tokensOf x ++ rest) = some (x, rest)) :
    ∀ fuel rest, pfuel x + 7 ≤ fuel → rest.head? ≠ some Tok.tand →
      rest.head? ≠ some Tok.tor → rest.head? ≠ some Tok.timpl →
      parseExpression fuel (.tnot :: (tokensOf x ++ rest)) =
        some (.neg x, rest) := by
  intro fuel rest h h1 h2 h3
  obtain ⟨f, rfl⟩ : ∃ f, fuel = f + 1 := ⟨fuel - 1, by omega⟩
  obtain ⟨f1, rfl⟩ : ∃ f1, f = f1 + 1 := ⟨f - 1, by omega⟩
  obtain ⟨f2, rfl⟩ : ∃ f2, f1 = f2 + 1 := ⟨f1 - 1, by omega⟩
  obtain ⟨f3, rfl⟩ : ∃ f3, f2 = f3 + 1 := ⟨f2 - 1, by omega⟩
  obtain ⟨f4, rfl⟩ : ∃ f4, f3 = f4 + 1 := ⟨f3 - 1, by omega⟩
  have hu : parseUnary (f4 + 1) (.tnot :: (tokensOf x ++ rest)) =
      some (.neg x, rest) := by
    unfold parseUnary
    dsimp only
    rw [parseUnary_chain HP f4 rest (by omega)]
  have hcj : parseConjunction (f4 + 1 + 1) (.tnot :: (tokensOf x ++ rest)) =
      some (.neg x, rest) := by
    unfold parseConjunction
    rw [hu]
    dsimp only
    exact parseConjLoop_stop (by omega) _ h1
  have hdj : parseDisjunction (f4 + 1 + 1 + 1)
      (.tnot :: (tokensOf x ++ rest)) = some (.neg x, rest) := by
    unfold parseDisjunction
    rw [hcj]
    dsimp only
    exact parseDisjLoop_stop (by omega) _ h2
  have him : parseImplication (f4 + 1 + 1 + 1 + 1)
      (.tnot :: (tokensOf x ++ rest)) = some (.neg x, rest) := by
    unfold parseImplication
    rw [hdj]
    dsimp only
    cases rest with
    | nil => rfl
    | cons r rest2 =>
        cases r with
        | timpl => exact absurd rfl h3
        | atomT m => rfl
        | ttrue => rfl
        | tfalse => rfl
        | tnot => rfl
        | tand => rfl
        | tor => rfl
        | lparen => rfl
        | rparen => rfl
  unfold parseExpression
  exact him

theorem parseExpr_conj_chain {a b : Expr}
    (HPa : ∀ fuel rest, pfuel a ≤ fuel →
      parsePrimary fuel (tokensOf a ++ rest) = some (a, rest))
    (HPb : ∀ fuel rest, pfuel b ≤ fuel →
      parsePrimary fuel (tokensOf b ++ rest) = some (b, rest)) :
    ∀ fuel rest, pfuel a + pfuel b + 11 ≤ fuel →
      rest.head? ≠ some Tok.tand → rest.head? ≠ some Tok.tor →
      rest.head? ≠ some Tok.timpl →
      parseExpression fuel (tokensOf a ++ (.tand :: (tokensOf b ++ rest))) =
        some (.conj a b, rest) := by
  intro fuel rest h h1 h2 h3
  obtain ⟨f, rfl⟩ : ∃ f, fuel = f + 1 := ⟨fuel - 1, by omega⟩
  obtain ⟨f1, rfl⟩ : ∃ f1, f = f1 + 1 := ⟨f - 1, by omega⟩
  obtain ⟨f2, rfl⟩ : ∃ f2, f1 = f2 + 1 := ⟨f1 - 1, by omega⟩
  obtain ⟨f3, rfl⟩ : ∃ f3, f2 = f3 + 1 := ⟨f2 - 1, by omega⟩
  obtain ⟨f4, rfl⟩ : ∃ f4, f3 = f4 + 1 := ⟨f3 - 1, by omega⟩
  have hbound : 1 ≤ pfuel a := pfuel_pos a
  have hbound2 : 1 ≤ pfuel b := pfuel_pos b
  have hu1 : parseUnary (f4 + 1)
      (tokensOf a ++ (.tand :: (tokensOf b ++ rest))) =
      some (a, .tand :: (tokensOf b ++ rest)) :=
    parseUnary_chain HPa (f4 + 1) _ (by omega)
  have hu2 : parseUnary f4 (tokensOf b ++ rest) = some (b, rest) :=
    parseUnary_chain HPb f4 rest (by omega)
  have hloop : parseConjLoop (f4 + 1) a (.tand :: (tokensOf b ++ rest)) =
      some (.conj a b, rest) := by
    unfold parseConjLoop
    dsimp only
    rw [hu2]
    dsimp only
    exact parseConjLoop_stop (by omega) _ h1
  have hcj : parseConjunction (f4 + 1 + 1)
      (tokensOf a ++ (.tand :: (tokensOf b ++ rest))) =
      some (.conj a b, rest) := by
    unfold parseConjunction
    rw [hu1]
    dsimp only
    exact hloop
  have hdj : parseDisjunction (f4 + 1 + 1 + 1)
      (tokensOf a ++ (.tand :: (tokensOf b ++ rest))) =
      some (.conj a b, rest) := by
    unfold parseDisjunction
    rw [hcj]
    dsimp only
    exact parseDisjLoop_stop (by omega) _ h2
  have him : parseImplication (f4 + 1 + 1 + 1 + 1)
      (tokensOf a ++ (.tand :: (tokensOf b ++ rest))) =
      some (.conj a b, rest) := by
    unfold parseImplication
    rw [hdj]
    dsimp only
    cases rest with
    | nil => rfl
    | cons r rest2 =>
        cases r with
        | timpl => exact absurd rfl h3
        | atomT m => rfl
        | ttrue => rfl
        | tfalse => rfl
        | tnot => rfl
        | tand => rfl
        | tor => rfl
        | lparen => rfl
        | rparen => rfl
  unfold parseExpression
  exact him

theorem parseExpr_disj_chain {a b : Expr}
    (HPa : ∀ fuel rest, pfuel a ≤ fuel →
      parsePrimary fuel (tokensOf a ++ rest) = some (a, rest))
    (HPb : ∀ fuel rest, pfuel b ≤ fuel →
      parsePrimary fuel (tokensOf b ++ rest) = some (b, rest)) :
    ∀ fuel rest, pfuel a + pfuel b + 11 ≤ fuel →
      rest.head? ≠ some Tok.tand → rest.head? ≠ some Tok.tor →
      rest.head? ≠ some Tok.timpl →
      parseExpression fuel (tokensOf a ++ (.tor :: (tokensOf b ++ rest))) =
        some (.disj a b, rest) := by
  intro fuel rest h h1 h2 h3
  obtain ⟨f, rfl⟩ : ∃ f, fuel = f + 1 := ⟨fuel - 1, by omega⟩
  obtain ⟨f1, rfl⟩ : ∃ f1, f = f1 + 1 := ⟨f - 1, by omega⟩
  obtain ⟨f2, rfl⟩ : ∃ f2, f1 = f2 + 1 := ⟨f1 - 1, by omega⟩
  obtain ⟨f3, rfl⟩ : ∃ f3, f2 = f3 + 1 := ⟨f2 - 1, by omega⟩
  have hbound : 1 ≤ pfuel a := pfuel_pos a
  have hbound2 : 1 ≤ pfuel b := pfuel_pos b
  have hcja : parseConjunction (f3 + 1)
      (tokensOf a ++ (.tor :: (tokensOf b ++ rest))) =
      some (a, .tor :: (tokensOf b ++ rest)) :=
    parseConjunction_chain HPa (f3 + 1) _ (by omega)
      (fun hh => Tok.noConfusion (Option.some.inj hh))
  have hcjb : parseConjunction f3 (tokensOf b ++ rest) = some (b, rest) :=
    parseConjunction_chain HPb f3 rest (by omega) h1
  have hloop : parseDisjLoop (f3 + 1) a (.tor :: (tokensOf b ++ rest)) =
      some (.disj a b, rest) := by
    unfold parseDisjLoop
    dsimp only
    rw [hcjb]
    dsimp only
    exact parseDisjLoop_stop (by omega) _ h2
  have hdj : parseDisjunction (f3 + 1 + 1)
      (tokensOf a ++ (.tor :: (tokensOf b ++ rest))) =
      some (.disj a b, rest) := by
    unfold parseDisjunction
    rw [hcja]
    dsimp only
    exact hloop
  have him : parseImplication (f3 + 1 + 1 + 1)
      (tokensOf a ++ (.tor :: (tokensOf b ++ rest))) =
      some (.disj a b, rest) := by
    unfold parseImplication
    rw [hdj]
    dsimp only
    cases rest with
    | nil => rfl
    | cons r rest2 =>
        cases r with
        | timpl => exact absurd rfl h3
        | atomT m => rfl
        | ttrue => rfl
        | tfalse => rfl
        | tnot => rfl
        | tand => rfl
        | tor => rfl
        | lparen => rfl
        | rparen => rfl
  unfold parseExpression
  exact him

theorem parseExpr_impl_chain {a b : Expr}
    (HPa : ∀ fuel rest, pfuel a ≤ fuel →
      parsePrimary fuel (tokensOf a ++ rest) = some (a, rest))
    (HPb : ∀ fuel rest, pfuel b ≤ fuel →
      parsePrimary fuel (tokensOf b ++ rest) = some (b, rest)) :
    ∀ fuel rest, pfuel a + pfuel b + 11 ≤ fuel →
      rest.head? ≠ some Tok.tand → rest.head? ≠ some Tok.tor →
      rest.head? ≠ some Tok.timpl →
      parseExpression fuel (tokensOf a ++ (.timpl :: (tokensOf b ++ rest))) =
        some (.impl a b, rest) := by
  intro fuel rest h h1 h2 h3
  obtain ⟨f, rfl⟩ : ∃ f, fuel = f + 1 := ⟨fuel - 1, by omega⟩
  obtain ⟨f1, rfl⟩ : ∃ f1, f = f1 + 1 := ⟨f - 1, by omega⟩
  have hbound : 1 ≤ pfuel a := pfuel_pos a
  have hbound2 : 1 ≤ pfuel b := pfuel_pos b
  have hda : parseDisjunction f1
      (tokensOf a ++ (.timpl :: (tokensOf b ++ rest))) =
      some (a, .timpl :: (tokensOf b ++ rest)) :=
    parseDisjunction_chain HPa f1 _ (by omega)
      (fun hh => Tok.noConfusion (Option.some.inj hh))
      (fun hh => Tok.noConfusion (Option.some.inj hh))
  have hib : parseImplication f1 (tokensOf b ++ rest) = some (b, rest) :=
    parseImplication_chain HPb f1 rest (by omega) h1 h2 h3
  unfold parseExpression
  unfold parseImplication
  rw [hda]
  dsimp only
  rw [hib]

theorem parsePrimary_round : ∀ (e : Expr) (fuel : Nat) (rest : List Tok),
    pfuel e ≤ fuel → parsePrimary fuel (tokensOf e ++ rest) = some (e, rest) := by
  intro e
  induction e with
  | atom n =>
      intro fuel rest h
      obtain ⟨f, rfl⟩ : ∃ f, fuel = f + 1 := ⟨fuel - 1, by
        simp only [pfuel] at h; omega⟩
      rfl
  | const b =>
      intro fuel rest h
      obtain ⟨f, rfl⟩ : ∃ f, fuel = f + 1 := ⟨fuel - 1, by
        simp only [pfuel] at h; omega⟩
      cases b with
      | false => rfl
      | true => rfl
  | neg a ih =>
      intro fuel rest h
      simp only [pfuel] at h
      obtain ⟨f, rfl⟩ : ∃ f, fuel = f + 1 := ⟨fuel - 1, by omega⟩
      have hx : tokensOf (.neg a) ++ rest =
          .lparen :: (.tnot :: (tokensOf a ++ (.rparen :: rest))) := by
        simp [tokensOf, List.append_assoc]
      rw [hx]
      unfold parsePrimary
      dsimp only
      rw [parseExpr_neg_chain ih f (.rparen :: rest) (by omega)
        (fun hh => Tok.noConfusion (Option.some.inj hh))
        (fun hh => Tok.noConfusion (Option.some.inj hh))
        (fun hh => Tok.noConfusion (Option.some.inj hh))]
  | conj a b iha ihb =>
      intro fuel rest h
      simp only [pfuel] at h
      obtain ⟨f, rfl⟩ : ∃ f, fuel = f + 1 := ⟨fuel - 1, by omega⟩
      have hx : tokensOf (.conj a b) ++ rest =
          .lparen :: (tokensOf a ++ (.tand :: (tokensOf b ++
            (.rparen :: rest)))) := by
        simp [tokensOf, List.append_assoc]
      rw [hx]
      unfold parsePrimary
      dsimp only
      rw [parseExpr_conj_chain iha ihb f (.rparen :: rest) (by omega)
        (fun hh => Tok.noConfusion (Option.some.inj hh))
        (fun hh => Tok.noConfusion (Option.some.inj hh))
        (fun hh => Tok.noConfusion (Option.some.inj hh))]
  | disj a b iha ihb =>
      intro fuel rest h
      simp only [pfuel] at h
      obtain ⟨f, rfl⟩ : ∃ f, fuel = f + 1 := ⟨fuel - 1, by omega⟩
      have hx : tokensOf (.disj a b) ++ rest =
          .lparen :: (tokensOf a ++ (.tor :: (tokensOf b ++
            (.rparen :: rest)))) := by
        simp [tokensOf, List.append_assoc]
      rw [hx]
      unfold parsePrimary
      dsimp only
      rw [parseExpr_disj_chain iha ihb f (.rparen :: rest) (by omega)
        (fun hh => Tok.noConfusion (Option.some.inj hh))
        (fun hh => Tok.noConfusion (Option.some.inj hh))
        (fun hh => Tok.noConfusion (Option.some.inj hh))]
  | impl a b iha ihb =>
      intro fuel rest h
      simp only [pfuel] at h
      obtain ⟨f, rfl⟩ : ∃ f, fuel = f + 1 := ⟨fuel - 1, by omega⟩
      have hx : tokensOf (.impl a b) ++ rest =
          .lparen :: (tokensOf a ++ (.timpl :: (tokensOf b ++
            (.rparen :: rest)))) := by
        simp [tokensOf, List.append_assoc]
      rw [hx]
      unfold parsePrimary
      dsimp only
      rw [parseExpr_impl_chain iha ihb f (.rparen :: rest) (by omega)
        (fun hh => Tok.noConfusion (Option.some.inj hh))
        (fun hh => Tok.noConfusion (Option.some.inj hh))
        (fun hh => Tok.noConfusion (Option.some.inj hh))]

theorem pfuel_le_tokens : ∀ e : Expr, pfuel e ≤ 10 * (tokensOf e).length := by
  intro e
  induction e with
  | atom n => simp [pfuel, tokensOf]
  | const b => cases b <;> simp [pfuel, tokensOf]
  | neg a ih =>
      simp only [pfuel, tokensOf, List.length_cons, List.length_append] at ih ⊢
      omega
  | conj a b iha ihb =>
      simp only [pfuel, tokensOf, List.length_cons, List.length_append]
        at iha ihb ⊢
      omega
  | disj a b iha ihb =>
      simp only [pfuel, tokensOf, List.length_cons, List.length_append]
        at iha ihb ⊢
      omega
  | impl a b iha ihb =>
      simp only [pfuel, tokensOf, List.length_cons, List.length_append]
        at iha ihb ⊢
      omega

theorem parseExpression_round (e : Expr) :
    parseExpression (10 * (tokensOf e).length + 10) (tokensOf e) =
      some (e, []) := by
  have hb := pfuel_le_tokens e
  have hchain := parseExpression_chain (parsePrimary_round e)
    (10 * (tokensOf e).length + 10) [] (by omega)
    (fun hh => Option.noConfusion hh)
    (fun hh => Option.noConfusion hh)
    (fun hh => Option.noConfusion hh)
  rw [List.append_nil] at hchain
  exact hchain

/-- C9: for every expression tree `e` the parser can produce from some input
string (together with its symbol table), re-parsing the canonical string
rendering of `e` (`str(proposition)`, fully parenthesized with the
`LogicOperator` symbols) succeeds and yields a structurally equal tree with
the same symbol table. -/
theorem c9_parse_render_round_trip (s : String) (e : Expr) (tbl : List String)
    (h : parseProp s = some (e, tbl)) : parseProp (render e) = some (e, tbl) := by
  unfold parseProp at h
  cases hta : tokenizeAll s.data with
  | error msg => rw [hta] at h; simp at h
  | ok ts =>
      rw [hta] at h
      dsimp only at h
      cases hpe : parseExpression (10 * ts.length + 10) ts with
      | none => rw [hpe] at h; simp at h
      | some pr =>
          rw [hpe] at h
          cases pr with
          | mk e2 rest2 =>
              cases rest2 with
              | nil =>
                  dsimp only at h
                  simp only [Option.some.injEq, Prod.mk.injEq] at h
                  obtain ⟨he2, htbl⟩ := h
                  rw [← he2, ← htbl]
                  have hok : tokAtomsOk ts = true :=
                    tokenizeFuel_atoms _ _ _ hta
                  have hwf : wfExpr e2 = true :=
                    ((parse_atoms_ok (10 * ts.length + 10)).2.2.2.2.2.2.2
                      ts e2 [] hpe hok).1
                  have htok : tokenizeAll (renderChars e2) =
                      .ok (tokensOf e2) := tokenizeAll_render e2 hwf
                  unfold parseProp
                  rw [show (render e2).data = renderChars e2 from rfl, htok]
                  dsimp only
                  rw [parseExpression_round e2]
              | cons r rest3 => simp at h

/-- Witness for C9: the parse of `"p ^ q"` round-trips through its canonical
rendering `"(p ^ q)"`. -/
theorem c9_witness :
    parseProp "p ^ q" = some (.conj (.atom "p") (.atom "q"), ["p", "q"]) ∧
    parseProp (render (.conj (.atom "p") (.atom "q"))) =
      some (.conj (.atom "p") (.atom "q"), ["p", "q"]) :=
  ⟨by decide, c9_parse_render_round_trip "p ^ q"
    (.conj (.atom "p") (.atom "q")) ["p", "q"] (by decide)⟩

theorem parseProp_keyword_true (s : String)
    (hall : s.data.all Char.isAlpha = true)
    (hm : String.mk (s.data.map Char.toUpper) = "TRUE" ∨
      String.mk (s.data.map Char.toUpper) = "T") :
    parseProp s = some (.const true, []) := by
  cases hd : s.data with
  | nil =>
      exfalso
      rw [hd] at hm
      rcases hm with hm | hm
      · exact absurd hm (by decide)
      · exact absurd hm (by decide)
  | cons c cs =>
      rw [hd] at hall hm
      have hrun : (c :: cs).takeWhile Char.isAlpha = c :: cs :=
        takeWhile_all _ _ hall
      have hword : wordOf (c :: cs) = String.mk ((c :: cs).map Char.toUpper) := by
        unfold wordOf alphaRun
        rw [hrun]
      have hca : c.isAlpha = true := by
        simp only [List.all_cons, Bool.and_eq_true] at hall
        exact hall.1
      rcases hm with hm | hm
      · have hm2 : (c :: cs).map Char.toUpper = ['T', 'R', 'U', 'E'] :=
          congrArg String.data hm
        have hcv : ¬ c = 'v' := by
          intro hc
          rw [hc] at hm2
          simp only [List.map_cons, List.cons.injEq] at hm2
          exact absurd hm2.1 (by decide)
        have hlen4 : (c :: cs).length = 4 := by
          have := congrArg List.length hm2
          simpa using this
        have hnt : nextToken (c :: cs) = .ok (some .ttrue, []) := by
          rw [nextToken_alpha_head _ hca hcv]
          unfold wordToken
          rw [hword, hm2, if_neg (by decide), if_neg (by decide),
            if_neg (by decide), if_neg (by decide), if_pos (by decide),
            ← hlen4, List.drop_length]
        have hta : tokenizeAll (c :: cs) = .ok [.ttrue] := by
          rw [tokenizeAll_step hnt]
          rfl
        unfold parseProp
        rw [hd, hta]
        rfl
      · have hm2 : (c :: cs).map Char.toUpper = ['T'] :=
          congrArg String.data hm
        have hcv : ¬ c = 'v' := by
          intro hc
          rw [hc] at hm2
          simp only [List.map_cons, List.cons.injEq] at hm2
          exact absurd hm2.1 (by decide)
        have hcs : cs = [] := by
          have hl := congrArg List.length hm2
          simp only [List.length_map, List.length_cons] at hl
          cases cs with
          | nil => rfl
          | cons x xs => simp at hl
        subst hcs
        have hnt : nextToken [c] = .ok (some .ttrue, []) := by
          rw [nextToken_alpha_head _ hca hcv]
          unfold wordToken
          rw [hword, hm2, if_neg (by decide), if_neg (by decide),
            if_neg (by decide), if_neg (by decide), if_neg (by decide),
            if_neg (by decide), if_pos (by decide)]
        have hta : tokenizeAll [c] = .ok [.ttrue] := by
          rw [tokenizeAll_step hnt]
          rfl
        unfold parseProp
        rw [hd, hta]
        rfl

theorem parseProp_keyword_false (s : String)
    (hall : s.data.all Char.isAlpha = true)
    (hm : String.mk (s.data.map Char.toUpper) = "FALSE" ∨
      String.mk (s.data.map Char.toUpper) = "F") :
    parseProp s = some (.const false, []) := by
  cases hd : s.data with
  | nil =>
      exfalso
      rw [hd] at hm
      rcases hm with hm | hm
      · exact absurd hm (by decide)
      · exact absurd hm (by decide)
  | cons c cs =>
      rw [hd] at hall hm
      have hrun : (c :: cs).takeWhile Char.isAlpha = c :: cs :=
        takeWhile_all _ _ hall
      have hword : wordOf (c :: cs) = String.mk ((c :: cs).map Char.toUpper) := by
        unfold wordOf alphaRun
        rw [hrun]
      have hca : c.isAlpha = true := by
        simp only [List.all_cons, Bool.and_eq_true] at hall
        exact hall.1
      rcases hm with hm | hm
      · have hm2 : (c :: cs).map Char.toUpper = ['F', 'A', 'L', 'S', 'E'] :=
          congrArg String.data hm
        have hcv : ¬ c = 'v' := by
          intro hc
          rw [hc] at hm2
          simp only [List.map_cons, List.cons.injEq] at hm2
          exact absurd hm2.1 (by decide)
        have hlen5 : (c :: cs).length = 5 := by
          have := congrArg List.length hm2
          simpa using this
        have hnt : nextToken (c :: cs) = .ok (some .tfalse, []) := by
          rw [nextToken_alpha_head _ hca hcv]
          unfold wordToken
          rw [hword, hm2, if_neg (by decide), if_neg (by decide),
            if_neg (by decide), if_neg (by decide), if_neg (by decide),
            if_pos (by decide), ← hlen5, List.drop_length]
        have hta : tokenizeAll (c :: cs) = .ok [.tfalse] := by
          rw [tokenizeAll_step hnt]
          rfl
        unfold parseProp
        rw [hd, hta]
        rfl
      · have hm2 : (c :: cs).map Char.toUpper = ['F'] :=
          congrArg String.data hm
        have hcv : ¬ c = 'v' := by
          intro hc
          rw [hc] at hm2
          simp only [List.map_cons, List.cons.injEq] at hm2
          exact absurd hm2.1 (by decide)
        have hcs : cs = [] := by
          have hl := congrArg List.length hm2
          simp only [List.length_map, List.length_cons] at hl
          cases cs with
          | nil => rfl
          | cons x xs => simp at hl
        subst hcs
        have hnt : nextToken [c] = .ok (some .tfalse, []) := by
          rw [nextToken_alpha_head _ hca hcv]
          unfold wordToken
          rw [hword, hm2, if_neg (by decide), if_neg (by decide),
            if_neg (by decide), if_neg (by decide), if_neg (by decide),
            if_neg (by decide), if_neg (by decide), if_pos (by decide)]
        have hta : tokenizeAll [c] = .ok [.tfalse] := by
          rw [tokenizeAll_step hnt]
          rfl
        unfold parseProp
        rw [hd, hta]
        rfl

theorem parseProp_wf {s : String} {e : Expr} {tbl : List String}
    (h : parseProp s = some (e, tbl)) : wfExpr e = true := by
  unfold parseProp at h
  cases hta : tokenizeAll s.data with
  | error msg => rw [hta] at h; simp at h
  | ok ts =>
      rw [hta] at h
      dsimp only at h
      cases hpe : parseExpression (10 * ts.length + 10) ts with
      | none => rw [hpe] at h; simp at h
      | some pr =>
          rw [hpe] at h
          cases pr with
          | mk e2 rest2 =>
              cases rest2 with
              | nil =>
                  dsimp only at h
                  simp only [Option.some.injEq, Prod.mk.injEq] at h
                  obtain ⟨he2, -⟩ := h
                  rw [← he2]
                  exact ((parse_atoms_ok (10 * ts.length + 10)).2.2.2.2.2.2.2
                    ts e2 [] hpe (tokenizeFuel_atoms _ _ _ hta)).1
              | cons r rest3 => simp at h

theorem wf_atomNames : ∀ (e : Expr), wfExpr e = true →
    ∀ n ∈ atomNames e, validName n = true := by
  intro e
  induction e with
  | atom m =>
      intro hwf n hn
      simp only [atomNames, List.mem_singleton] at hn
      subst hn
      simpa [wfExpr] using hwf
  | const b =>
      intro _ n hn
      simp [atomNames] at hn
  | neg a ih =>
      intro hwf n hn
      exact ih (by simpa [wfExpr] using hwf) n (by simpa [atomNames] using hn)
  | conj a b iha ihb =>
      intro hwf n hn
      simp only [wfExpr, Bool.and_eq_true] at hwf
      simp only [atomNames, List.mem_append] at hn
      rcases hn with hn | hn
      · exact iha hwf.1 n hn
      · exact ihb hwf.2 n hn
  | disj a b iha ihb =>
      intro hwf n hn
      simp only [wfExpr, Bool.and_eq_true] at hwf
      simp only [atomNames, List.mem_append] at hn
      rcases hn with hn | hn
      · exact iha hwf.1 n hn
      · exact ihb hwf.2 n hn
  | impl a b iha ihb =>
      intro hwf n hn
      simp only [wfExpr, Bool.and_eq_true] at hwf
      simp only [atomNames, List.mem_append] at hn
      rcases hn with hn | hn
      · exact iha hwf.1 n hn
      · exact ihb hwf.2 n hn

theorem validName_head {n : String} (h : validName n = true) {c : Char}
    (hc : n.data.head? = some c) : c.isAlpha = true ∧ ¬ c = 'v' := by
  cases hd : n.data with
  | nil => rw [hd] at hc; simp at hc
  | cons c0 cs =>
      rw [hd] at hc
      obtain rfl := Option.some.inj hc
      unfold validName at h
      rw [hd] at h
      simp only [Bool.and_eq_true, Bool.not_eq_true', decide_eq_false_iff_not,
        decide_eq_true_eq] at h
      obtain ⟨⟨⟨⟨⟨⟨⟨⟨⟨⟨ha, hv⟩, -⟩, -⟩, -⟩, -⟩, -⟩, -⟩, -⟩, -⟩, -⟩ := h
      exact ⟨ha, hv⟩

/-- C10: keyword recognition is case-insensitive — any all-letter string
whose uppercasing is `"TRUE"`/`"T"` parses to the TRUE constant with an empty
symbol table, likewise `"FALSE"`/`"F"` for FALSE; the lowercase words `and`,
`or`, `not`, `implies` act as operators; and no parse ever produces an atomic
variable whose name begins with `v`, `|`, `+`, `^`, `&`, `*`, `~`, `!` or
`¬`, because those characters are tokenized as operators before identifier
lexing. -/
theorem c10_keyword_case_and_operator_precedence :
    (∀ s : String, s.data.all Char.isAlpha = true →
      (String.mk (s.data.map Char.toUpper) = "TRUE" ∨
       String.mk (s.data.map Char.toUpper) = "T") →
      parseProp s = some (.const true, [])) ∧
    (∀ s : String, s.data.all Char.isAlpha = true →
      (String.mk (s.data.map Char.toUpper) = "FALSE" ∨
       String.mk (s.data.map Char.toUpper) = "F") →
      parseProp s = some (.const false, [])) ∧
    parseProp "p and q" = some (.conj (.atom "p") (.atom "q"), ["p", "q"]) ∧
    parseProp "p or q" = some (.disj (.atom "p") (.atom "q"), ["p", "q"]) ∧
    parseProp "not p" = some (.neg (.atom "p"), ["p"]) ∧
    parseProp "p implies q" = some (.impl (.atom "p") (.atom "q"), ["p", "q"]) ∧
    (∀ (s : String) (e : Expr) (tbl : List String),
      parseProp s = some (e, tbl) → ∀ n ∈ atomNames e, ∀ c : Char,
      n.data.head? = some c →
      c ∉ (['v', '|', '+', '^', '&', '*', '~', '!', '¬'] : List Char)) := by
  refine ⟨parseProp_keyword_true, parseProp_keyword_false, by decide,
    by decide, by decide, by decide, ?_⟩
  intro s e tbl hp n hn c hc
  have hwf := parseProp_wf hp
  have hval := wf_atomNames e hwf n hn
  obtain ⟨ha, hv⟩ := validName_head hval hc
  intro hmem
  simp only [List.mem_cons, List.not_mem_nil, or_false] at hmem
  rcases hmem with rfl | rfl | rfl | rfl | rfl | rfl | rfl | rfl | rfl
  · exact hv rfl
  · exact absurd ha (by decide)
  · exact absurd ha (by decide)
  · exact absurd ha (by decide)
  · exact absurd ha (by decide)
  · exact absurd ha (by decide)
  · exact absurd ha (by decide)
  · exact absurd ha (by decide)
  · exact absurd ha (by decide)

/-- Witness for C10: the mixed-case strings `"tRuE"` and `"FaLsE"` parse to
the TRUE and FALSE constants with empty symbol tables. -/
theorem c10_witness :
    parseProp "tRuE" = some (.const true, []) ∧
    parseProp "FaLsE" = some (.const false, []) :=
  ⟨c10_keyword_case_and_operator_precedence.1 "tRuE" (by decide)
      (.inl (by decide)),
   c10_keyword_case_and_operator_precedence.2.1 "FaLsE" (by decide)
      (.inl (by decide))⟩

end PyLogic
